import Mathlib

/-!
Verification development for the recommendation ranking and selection engine
of the EcHackthon/ai repository
(src/chatbot_project/ai_core/recommendation_service.py, models.py).

Modelling conventions.

* Python floats and ints are modelled by exact rationals; float rounding is
  idealised away, as is customary in shallow embeddings.
* Heterogeneous Python values reaching _normalize_target_features are modelled
  by the inductive PyVal below.  A string is either numeric (float(s) parses,
  carrying the parsed value) or non-numeric (carrying only whether it is empty,
  which is all Python truthiness needs).  Booleans are folded into numbers, as
  in Python where bool is an int subtype.
* Python dicts are modelled by insertion-ordered association lists with
  dict-update semantics (dSet replaces in place, dSetdefault appends a fresh
  key at the end), mirroring CPython ordering.  A real dict never has duplicate
  keys, so theorems about dict inputs carry Nodup hypotheses on key lists.
* The transcendental bits the service delegates to the runtime — float ** 0.5
  in _feature_distance, math.exp in _score_item, the SHA1-derived jitter span —
  are modelled by explicit functional parameters (fsqrt, fexp, sha1span) of the
  environment: the service only pipes values through them.
* random.Random().uniform is modelled by an infinite stream of unit draws
  (rng : Nat → Q), consumed left to right, with uniform lo hi u = lo + (hi-lo)*u
  exactly as CPython computes it.
-/

namespace RecSvc

/-- A heterogeneous Python value, as seen by the feature-profile normalizer.
numeric strings carry the value `float(s)` would produce; `strBad` is a string
on which `float` raises, with its emptiness recorded for truthiness. -/
inductive PyVal where
  | num (q : ℚ)
  | strNum (q : ℚ)
  | strBad (empty : Bool)
  | list (xs : List PyVal)
  | dict (entries : List (String × PyVal))
  | none
deriving Repr

/-- Python truthiness of a `PyVal` (`bool(v)`): zero numbers, empty strings,
empty containers and `None` are falsy. -/
def pyTruthy : PyVal → Bool
  | .num q => decide (q ≠ 0)
  | .strNum _ => true
  | .strBad e => !e
  | .list xs => !xs.isEmpty
  | .dict d => !d.isEmpty
  | .none => false

/-- `a or b` on Python values. -/
def pyOr (a b : PyVal) : PyVal := if pyTruthy a then a else b

/-- `d.get(k)` on a modelled inner Python dict, `None` when the key is absent. -/
def pyGet (d : List (String × PyVal)) (k : String) : PyVal :=
  match d with
  | [] => .none
  | (k', v) :: rest => if k' = k then v else pyGet rest k

/-- `float(v)` wrapped in `try/except (TypeError, ValueError)`: the `_parse_num`
helper of `_normalize_target_features`. -/
def _parse_num : PyVal → Option ℚ
  | .num q => some q
  | .strNum q => some q
  | .strBad _ => Option.none
  | .list _ => Option.none
  | .dict _ => Option.none
  | .none => Option.none

/-- A normalized feature range, i.e. the `{"min": .., "max": .., "target": ..}`
dicts the normalizer builds (they always carry exactly these three keys). -/
structure FRange where
  min : ℚ
  max : ℚ
  target : ℚ
deriving Repr, DecidableEq

/-- Insertion-ordered dict update for generic values: replace in place when the
key is present, append otherwise (CPython `d[k] = v`). -/
def dSet {β : Type} (m : List (String × β)) (k : String) (v : β) : List (String × β) :=
  match m with
  | [] => [(k, v)]
  | (k', v') :: rest => if k' = k then (k, v) :: rest else (k', v') :: dSet rest k v

/-- Generic association lookup used for ranges and history maps. -/
def dFind {β : Type} (k : String) : List (String × β) → Option β
  | [] => Option.none
  | (k', v) :: rest => if k' = k then some v else dFind k rest

/-- `d.setdefault(k, v)` (CPython: appends when absent, no-op when present). -/
def dSetdefault {β : Type} (m : List (String × β)) (k : String) (v : β) : List (String × β) :=
  match dFind k m with
  | some _ => m
  | Option.none => m ++ [(k, v)]

/-- The `_coerce_range` closure of `_normalize_target_features`: interpret one
heterogeneous payload as a min/max/target dict, or drop it. -/
def _coerce_range (payload : PyVal) : Option FRange :=
  let step (lo hi target : Option ℚ) : Option FRange :=
    -- the common tail from `if lo is None and hi is None ...` onwards
    let (lo, hi) :=
      if lo = Option.none ∧ hi = Option.none ∧ target ≠ Option.none then (target, target)
      else (lo, hi)
    let lo := if lo = Option.none then hi else lo
    let hi := if hi = Option.none then lo else hi
    match lo, hi with
    | some loV, some hiV =>
        let (loF, hiF) := if hiV < loV then (hiV, loV) else (loV, hiV)
        let targetVal := match target with
          | some t => t
          | Option.none => (loF + hiF) / 2
        some ⟨loF, hiF, targetVal⟩
    | _, _ => Option.none
  match payload with
  | .dict d =>
      let lo := _parse_num (pyGet d "min")
      let hi := _parse_num (pyGet d "max")
      let target := _parse_num
        (pyOr (pyGet d "target") (pyOr (pyGet d "value")
          (pyOr (pyGet d "center") (pyOr (pyGet d "mid") (pyGet d "mean")))))
      let spread := _parse_num (pyOr (pyGet d "spread") (pyOr (pyGet d "width") (pyGet d "delta")))
      let (lo, hi) :=
        match spread, target with
        | some s, some t =>
            (if lo = Option.none then some (t - s) else lo,
             if hi = Option.none then some (t + s) else hi)
        | _, _ => (lo, hi)
      let target :=
        match target, lo, hi with
        | Option.none, some loV, some hiV => some ((loV + hiV) / 2)
        | t, _, _ => t
      -- `if target is None and lo is not None and hi is None: hi = lo; target = lo`
      let (lo, hi, target) :=
        match target, lo, hi with
        | Option.none, some loV, Option.none => (some loV, some loV, some loV)
        | t, l, h => (l, h, t)
      -- `if target is None and hi is not None and lo is None: lo = hi; target = hi`
      let (lo, hi, target) :=
        match target, lo, hi with
        | Option.none, Option.none, some hiV => (some hiV, some hiV, some hiV)
        | t, l, h => (l, h, t)
      step lo hi target
  | .list xs =>
      if h : 2 ≤ xs.length then
        let lo := _parse_num (xs.get ⟨0, by omega⟩)
        let hi := _parse_num (xs.get ⟨1, by omega⟩)
        let target := if h3 : 3 ≤ xs.length then _parse_num (xs.get ⟨2, by omega⟩) else Option.none
        let target :=
          match target, lo, hi with
          | Option.none, some loV, some hiV => some ((loV + hiV) / 2)
          | t, _, _ => t
        step lo hi target
      else Option.none
  | _ => Option.none

/-- An outer dict key: Python allows non-string keys, which the normalizer
skips via `isinstance(name, str)`. -/
abbrev OKey := Option String

/-- One step of the declared-ranges loop of `_normalize_target_features`. -/
def normDeclStep (st : List (String × ℚ) × List (String × FRange)) (kv : OKey × PyVal) :
    List (String × ℚ) × List (String × FRange) :=
  match kv.1 with
  | Option.none => st
  | some name =>
      match _coerce_range kv.2 with
      | Option.none => st
      | some c => (dSetdefault st.1 name c.target, dSet st.2 name c)

/-- One step of the raw-features loop of `_normalize_target_features`. -/
def normRawStep (st : List (String × ℚ) × List (String × FRange)) (kv : OKey × PyVal) :
    List (String × ℚ) × List (String × FRange) :=
  match kv.1 with
  | Option.none => st
  | some name =>
      let coerced : Option FRange :=
        match kv.2 with
        | .dict _ => _coerce_range kv.2
        | .list _ => _coerce_range kv.2
        | _ => Option.none
      match coerced with
      | some c => (dSet st.1 name c.target, dSet st.2 name c)
      | Option.none =>
          match _parse_num kv.2 with
          | Option.none => st
          | some num =>
              let centers := dSet st.1 name num
              match dFind name st.2 with
              | Option.none => (centers, dSet st.2 name ⟨num, num, num⟩)
              | some entry =>
                  (centers, dSet st.2 name ⟨min entry.min num, max entry.max num, num⟩)

/-- One step of the reconciliation loop (`for name, value in list(centers.items())`). -/
def normReconStep (ranges : List (String × FRange)) (kv : String × ℚ) :
    List (String × FRange) :=
  let (name, value) := kv
  match dFind name ranges with
  | Option.none => ranges ++ [(name, ⟨value, value, value⟩)]
  | some entry => dSet ranges name ⟨min entry.min value, max entry.max value, entry.target⟩

/-- `_normalize_target_features`: turn heterogeneous raw features and declared
ranges into exact centers and min/max/target ranges.  The final loop that
back-fills `centers` from `ranges` is included verbatim even though the earlier
phases always leave every range key present in `centers`. -/
def _normalize_target_features (raw : Option (List (OKey × PyVal)))
    (declared : Option (List (OKey × PyVal))) :
    List (String × ℚ) × List (String × FRange) :=
  let st0 : List (String × ℚ) × List (String × FRange) := ([], [])
  let st1 := match declared with
    | some d => d.foldl normDeclStep st0
    | Option.none => st0
  let st2 := match raw with
    | some r => r.foldl normRawStep st1
    | Option.none => st1
  let ranges3 := st2.1.foldl normReconStep st2.2
  let centers3 := ranges3.foldl
    (fun cs (kv : String × FRange) =>
      match dFind kv.1 cs with
      | some _ => cs
      | Option.none => cs ++ [(kv.1, kv.2.target)])
    st2.1
  (centers3, ranges3)

/-- `random.uniform(a, b)` given the unit draw `u` (CPython computes
`a + (b-a) * random()`). -/
def uniformDraw (lo hi u : ℚ) : ℚ := lo + (hi - lo) * u

/-- The first loop body of `_sample_target_features` (lines 181-195): one
iteration over a `(name, center)` item of `centers`, threading the sampled
dict and the count of random draws made so far. -/
def sampleStep1 (rng : ℕ → ℚ) (ranges : List (String × FRange))
    (si : List (String × ℚ) × ℕ) (kv : String × ℚ) : List (String × ℚ) × ℕ :=
  let lo : ℚ := match dFind kv.1 ranges with
    | some info => info.min
    | Option.none => kv.2
  let hi : ℚ := match dFind kv.1 ranges with
    | some info => info.max
    | Option.none => kv.2
  let loF : ℚ := if hi < lo then hi else lo
  let hiF : ℚ := if hi < lo then lo else hi
  if hiF - loF ≤ 1e-6 then (dSet si.1 kv.1 kv.2, si.2)
  else (dSet si.1 kv.1 (uniformDraw loF hiF (rng si.2)), si.2 + 1)

/-- The second loop body of `_sample_target_features` (lines 196-216): one
iteration over a `(name, info)` item of `ranges`, skipped when the name was
already sampled. -/
def sampleStep2 (rng : ℕ → ℚ)
    (si : List (String × ℚ) × ℕ) (kv : String × FRange) : List (String × ℚ) × ℕ :=
  match dFind kv.1 si.1 with
  | some _ => si
  | Option.none =>
      let loF : ℚ := if kv.2.max < kv.2.min then kv.2.max else kv.2.min
      let hiF : ℚ := if kv.2.max < kv.2.min then kv.2.min else kv.2.max
      if hiF - loF ≤ 1e-6 then (dSet si.1 kv.1 loF, si.2)
      else (dSet si.1 kv.1 (uniformDraw loF hiF (rng si.2)), si.2 + 1)

/-- `_sample_target_features`: draw one concrete value per feature.  The
`lo is None or hi is None` guards of the source are dead here because every
modelled range dict carries all three keys, as the normalizer guarantees. -/
def _sample_target_features (rng : ℕ → ℚ) (centers : List (String × ℚ))
    (ranges : List (String × FRange)) : List (String × ℚ) :=
  if centers.isEmpty && ranges.isEmpty then [] else
  (ranges.foldl (sampleStep2 rng) (centers.foldl (sampleStep1 rng ranges) ([], 0))).1

/-- The five directly-scaled audio feature names of `_feature_distance`. -/
def scoringKeys : List String :=
  ["acousticness", "danceability", "energy", "instrumentalness", "valence"]

/-- `_feature_distance`, with the float `** 0.5` of the source abstracted as an
explicit `fsqrt` argument.  Accumulates squared deltas and a count exactly as
the source loop does, and returns the `1e9` sentinel on empty input or when no
scoring feature is shared. -/
def _feature_distance (fsqrt : ℚ → ℚ) (feats target : List (String × ℚ)) : ℚ :=
  if feats.isEmpty || target.isEmpty then 1e9 else
  let acc := scoringKeys.foldl
    (fun (tc : ℚ × ℕ) key =>
      match dFind key feats, dFind key target with
      | some f, some t => (tc.1 + (f - t) * (f - t), tc.2 + 1)
      | _, _ => tc)
    (0, 0)
  let acc := match dFind "tempo" feats, dFind "tempo" target with
    | some f, some t => (acc.1 + ((f - t) / 50) * ((f - t) / 50), acc.2 + 1)
    | _, _ => acc
  let acc := match dFind "loudness" feats, dFind "loudness" target with
    | some f, some t => (acc.1 + ((f - t) / 10) * ((f - t) / 10), acc.2 + 1)
    | _, _ => acc
  if acc.2 = 0 then 1e9 else fsqrt (acc.1 / (acc.2 : ℚ))

/-- ASCII lower-casing of one character (the catalog strings the service
normalizes are compared case-insensitively; non-ASCII letters pass through). -/
def charLower (c : Char) : Char :=
  if 65 ≤ c.toNat ∧ c.toNat ≤ 90 then Char.ofNat (c.toNat + 32) else c

/-- ASCII upper-casing of one character. -/
def charUpper (c : Char) : Char :=
  if 97 ≤ c.toNat ∧ c.toNat ≤ 122 then Char.ofNat (c.toNat - 32) else c

/-- `str.lower()` (ASCII-faithful). -/
def strLower (s : String) : String := ⟨s.data.map charLower⟩

/-- `str.upper()` (ASCII-faithful). -/
def strUpper (s : String) : String := ⟨s.data.map charUpper⟩

/-- Python `\s` / `str.strip` whitespace: space, tab, newline, carriage
return, vertical tab, form feed. -/
def isPyWs (c : Char) : Bool :=
  c.toNat = 32 || c.toNat = 9 || c.toNat = 10 || c.toNat = 13 || c.toNat = 11 || c.toNat = 12

/-- `str.strip()`. -/
def pyStrip (s : String) : String :=
  ⟨((s.data.dropWhile isPyWs).reverse.dropWhile isPyWs).reverse⟩

/-- Split into maximal whitespace-free words (`cur` is the word in progress). -/
def wsWords : List Char → List Char → List (List Char) → List (List Char)
  | [], cur, acc => if cur.isEmpty then acc else acc ++ [cur]
  | c :: rest, cur, acc =>
      if isPyWs c then
        if cur.isEmpty then wsWords rest [] acc else wsWords rest [] (acc ++ [cur])
      else wsWords rest (cur ++ [c]) acc

/-- `re.sub(r"\s+", " ", s).strip()`: collapse whitespace runs and trim. -/
def collapseWs (s : String) : String :=
  ⟨List.intercalate [' '] (wsWords s.data [] [])⟩

/-- `int(s)` restricted to what a year prefix needs: optional surrounding
whitespace, optional sign, a non-empty digit run; `none` when `int` raises. -/
def parseIntChars (cs : List Char) : Option Int :=
  let cs := ((cs.dropWhile isPyWs).reverse.dropWhile isPyWs).reverse
  let sd : Int × List Char := match cs with
    | '-' :: rest => (-1, rest)
    | '+' :: rest => (1, rest)
    | _ => (1, cs)
  if sd.2.isEmpty then Option.none
  else if sd.2.all (fun c => decide (48 ≤ c.toNat) && decide (c.toNat ≤ 57)) then
    some (sd.1 * sd.2.foldl (fun acc c => acc * 10 + ((c.toNat : Int) - 48)) 0)
  else Option.none

/-- `_norm_pair`: the normalized name::artist deduplication key. -/
def _norm_pair (name artist : String) : String :=
  collapseWs (strLower name) ++ "::" ++ collapseWs (strLower artist)

/-- Whether `sub` occurs at the head of `cs` (`str.startswith` on char lists). -/
def headMatch : List Char → List Char → Bool
  | [], _ => true
  | _ :: _, [] => false
  | a :: as, b :: bs => a == b && headMatch as bs

/-- Whether `sub` occurs anywhere in `cs` (the `in` operator on Python strings). -/
def hasSubAux (sub : List Char) : List Char → Bool
  | [] => headMatch sub []
  | c :: rest => headMatch sub (c :: rest) || hasSubAux sub rest

/-- `sub in s` on Python strings. -/
def hasSub (sub s : String) : Bool := hasSubAux sub.toList s.toList

/-- `_contains_hangul`: a character in the Hangul syllables block. -/
def _contains_hangul (s : String) : Bool :=
  if s = "" then false
  else s.data.any (fun c => decide (0xAC00 ≤ c.toNat) && decide (c.toNat ≤ 0xD7AF))

/-- A raw catalog track dict, restricted to the keys the service reads.
Missing/None string values are modelled as `""` (both are falsy in Python);
a missing popularity is `0`, matching every read site
(`item.get("popularity", 0)`, `int/float(track.get("popularity") or 0)`). -/
structure Td where
  id : String := ""
  name : String := ""
  artists : List String := []
  popularity : Int := 0
  releaseDate : String := ""
  albumName : String := ""
  albumImages : List String := []
  externalUrl : String := ""
deriving Repr, DecidableEq

/-- The `ArtistLite` records returned by the genre search capability. -/
structure ArtistLite where
  id : String := ""
  name : String := ""
  followers : Int := 0
  popularity : Int := 0
deriving Repr, DecidableEq

/-- `_korean_like`: the locale plausibility check.  Every path of the source
returns `True` (the Hangul preference is a soft no-op), and the transcription
keeps the source structure. -/
def _korean_like (track : Td) (genres : List String) (market : String) : Bool :=
  let genreBlob := ",".intercalate (genres.map strLower)
  if hasSub "k-" genreBlob || hasSub "korean" genreBlob || strUpper market == "KR" then
    if (track.name :: track.artists).any _contains_hangul then true
    else true
  else true

/-- The remaster/compilation keyword list of `_is_remaster_like`. -/
def remasterKeywords : List String :=
  ["remaster", "remastered", "re-recorded", "compilation", "greatest hits", "new stereo"]

/-- `_is_remaster_like`: keyword match on lowered title or album name. -/
def _is_remaster_like (t : Td) : Bool :=
  let title := strLower t.name
  let album := strLower t.albumName
  remasterKeywords.any (fun k => hasSub k title) || remasterKeywords.any (fun k => hasSub k album)

/-- `_extract_release_year`: year prefix of the album release date, `0` when
absent or unparseable (the source catches all exceptions). -/
def _extract_release_year (t : Td) : Int :=
  if t.releaseDate = "" then 0
  else match parseIntChars (t.releaseDate.data.takeWhile (· != '-')) with
    | some n => n
    | Option.none => 0

/-- `_era_from_context`: the classic/vintage french-house era heuristic. -/
def _era_from_context (genres seedArtists : List String) : Int × Int :=
  let genreBlob := ",".intercalate (genres.map strLower)
  let artistBlob := ",".intercalate (seedArtists.map strLower)
  if hasSub "classic french house" genreBlob || hasSub "french touch" genreBlob
      || (["daft punk", "modjo", "stardust", "cassius", "etienne de crecy"].any
            (fun n => hasSub n artistBlob)) then
    (1996, 2003)
  else (0, 0)

/-- `_score_item`: popularity plus era bonus plus remaster penalty, with
`math.exp` abstracted as `fexp`. -/
def _score_item (fexp : ℚ → ℚ) (t : Td) (era : Int × Int) : ℚ :=
  let popularity : ℚ := (t.popularity : ℚ) / 100
  let year := _extract_release_year t
  let eraBonus : ℚ :=
    if era.1 ≠ 0 ∧ year ≠ 0 then
      if era.1 ≤ year ∧ year ≤ era.2 then
        let center : ℚ := ((era.1 : ℚ) + (era.2 : ℚ)) / 2
        let width : ℚ := max 1 (((era.2 : ℚ) - (era.1 : ℚ)) / 2)
        fexp (-(((year : ℚ) - center) ^ 2) / (2 * width * width)) * 0.6
      else -0.2
    else 0
  let remasterPenalty : ℚ := if _is_remaster_like t then -0.25 else 0
  popularity + eraBonus + remasterPenalty

/-- Python list slicing `l[:n]` for a possibly-negative `n`. -/
def pyTake {α : Type} (n : Int) (l : List α) : List α :=
  if 0 ≤ n then l.take n.toNat else l.take (l.length - (-n).toNat)

/-- Stable insertion: place `x` before the first element it strictly precedes,
keeping the original relative order of ties.  A stable sort result is unique,
so insertion sort is observationally the same as CPython timsort. -/
def stableInsertBy {α : Type} (goesBefore : α → α → Bool) (x : α) : List α → List α
  | [] => [x]
  | y :: ys => if goesBefore x y then x :: y :: ys else y :: stableInsertBy goesBefore x ys

/-- Stable sort by a strict precedence predicate, processing elements in their
original order. -/
def stableSortBy {α : Type} (goesBefore : α → α → Bool) (l : List α) : List α :=
  l.foldl (fun acc x => stableInsertBy goesBefore x acc) []

/-- `list.sort(key=lambda pair: pair[0], reverse=True)`: stable descending sort
on the score component (CPython sort is stable). -/
def sortScoredDesc {α : Type} (scored : List (ℚ × α)) : List (ℚ × α) :=
  stableSortBy (fun a b => decide (b.1 < a.1)) scored

/-- A raw recommendation response, restricted to the keys the service reads
back.  `target_features = []` models an absent or falsy entry; `jitterHint`
is `none` when `per_track_jitter_hint` is missing or not a dict. -/
structure RawResp where
  tracks : List Td := []
  labelHints : List String := []
  jitterHint : Option (List (String × ℚ)) := Option.none
  targetFeatures : List (String × ℚ) := []

/-- The catalog capability interface, as the service calls it.  Methods the
service wraps in `try/except` return `Except Unit`; the rest are consumed as
total (an authentication failure would propagate before any state change).
`get_audio_features` returns an id-keyed dict, as both the spec and the
bundled client define it. -/
structure Client where
  normalize_genres : List String → List String
  search_artists_by_genre : String → ℕ → Option String → Except Unit (List ArtistLite)
  resolve_artist_ids : List String → Option String → List (String × String)
  get_recommendations : List (String × ℚ) → List (String × FRange) → List String →
    List String → Int → Option String → RawResp × List (String × ℚ) × List String
  search_tracks_by_label : String → ℕ → Except Unit (List Td)
  search_tracks_raw : String → ℕ → Option String → Except Unit (List Td)
  get_artist_top_tracks : List String → Option String → Int → List Td
  get_audio_features : List String → List (String × List (String × ℚ))
  market : Option String := Option.none

/-- The ambient environment of one `RecommendationService` instance: the
injected client, the runtime functions the service pipes values through, the
unit-draw stream behind `random.Random`, and the constructor arguments. -/
structure Env where
  client : Client
  fsqrt : ℚ → ℚ := fun q => q
  fexp : ℚ → ℚ := fun q => q
  sha1span : String → List (String × ℚ) → ℚ := fun _ _ => 0
  rng : ℕ → ℚ := fun _ => 0
  market : Option String := Option.none
  defaultLimit : Int := 5

/-- The mutable service state: `_user_track_history` (an insertion-ordered
dict from user key to served track ids). -/
structure SvcState where
  hist : List (String × List String) := []

/-- `_jitter_score`, with the SHA1-digest span abstracted as `env.sha1span`
(a pure function of the track id and the target features, as in the source). -/
def _jitter_score (env : Env) (trackId : String) (targetFeatures : List (String × ℚ))
    (jitterHint : List (String × ℚ)) : ℚ :=
  if trackId = "" || jitterHint.isEmpty then 0
  else
    let magnitude := (jitterHint.map (·.2)).sum
    if magnitude = 0 then 0
    else env.sha1span trackId targetFeatures * (magnitude / (jitterHint.length : ℚ)) * 0.05

/-- The scored list `_rank_tracks` builds over `enumerate(tracks)`: distance
versus the target (or `1.0` when no target), popularity/200, jitter, and the
`-index * 1e-5` positional-stability bias. -/
def rankScored (env : Env) (tracks : List Td) (afm : List (String × List (String × ℚ)))
    (targetFeatures : List (String × ℚ)) (jitterHint : List (String × ℚ)) : List (ℚ × Td) :=
  tracks.enum.map (fun it =>
    let features := (dFind it.2.id afm).getD []
    let distance0 := _feature_distance env.fsqrt features targetFeatures
    let distance := if targetFeatures.isEmpty then 1 else distance0
    let popularityBonus := (it.2.popularity : ℚ) / 200
    let jitterScore := _jitter_score env it.2.id targetFeatures jitterHint
    (-distance + popularityBonus + jitterScore + -(it.1 : ℚ) * 1e-5, it.2))

/-- `_rank_tracks`: stable descending sort of the scored list, sliced to
`limit`. -/
def _rank_tracks (env : Env) (tracks : List Td) (afm : List (String × List (String × ℚ)))
    (targetFeatures : List (String × ℚ)) (jitterHint : List (String × ℚ)) (limit : Int) :
    List Td :=
  if tracks.isEmpty then []
  else (pyTake limit (sortScoredDesc (rankScored env tracks afm targetFeatures jitterHint))).map (·.2)

/-- `_collect_search_terms`: lowered, deduplicated search terms, capped at 6. -/
def _collect_search_terms (normalized inferred : List String) : List String :=
  let step := fun (acc : List String) (s : String) =>
    let lower := pyStrip (strLower s)
    if lower ≠ "" ∧ lower ∉ acc then acc ++ [lower] else acc
  let terms := normalized.foldl step []
  let terms := if terms.isEmpty then inferred.foldl step [] else terms
  if terms.isEmpty then [] else terms.take 6

/-- Inner candidate scan of `_augment_from_search_terms`: skip known ids and
name/artist pairs, collect until `limit`, flagging the early `return`. -/
def augScan (limit : Int) :
    List Td → List String × List String × List Td → (List String × List String × List Td) × Bool
  | [], st => (st, false)
  | t :: rest, st =>
      if t.id = "" || st.1.contains t.id then augScan limit rest st
      else
        let pair := _norm_pair t.name (t.artists.headD "")
        if st.2.1.contains pair then augScan limit rest st
        else
          let st' := (st.1 ++ [t.id], st.2.1 ++ [pair], st.2.2 ++ [t])
          if limit ≤ (st'.2.2.length : Int) then (st', true) else augScan limit rest st'

/-- Per-term loop of `_augment_from_search_terms`: a failing search is skipped
(`except Exception: continue`). -/
def augTerms (env : Env) (market : Option String) (limit : Int) :
    List String → List String × List String × List Td → List Td
  | [], st => st.2.2
  | term :: rest, st =>
      match env.client.search_tracks_raw term 25 market with
      | .error _ => augTerms env market limit rest st
      | .ok candidates =>
          let (st', done) := augScan limit candidates st
          if done then st'.2.2 else augTerms env market limit rest st'

/-- `_augment_from_search_terms`. -/
def _augment_from_search_terms (env : Env) (terms : List String) (existing : List Td)
    (market : Option String) (limit : Int) : List Td :=
  if limit ≤ 0 || terms.isEmpty then []
  else
    let existingIds := ((existing.filter (fun t => t.id ≠ "")).map (·.id))
    let seenPairs := existing.map (fun t => _norm_pair t.name (t.artists.headD ""))
    augTerms env market limit terms (existingIds, seenPairs, [])

/-- Inner candidate scan of `_augment_from_artist_search`, with the
seed-artist-overlap filter. -/
def augArtistScan (take : Int) (lowerSeedNames : List String) :
    List Td → List String × List String × List Td → (List String × List String × List Td) × Bool
  | [], st => (st, false)
  | t :: rest, st =>
      if t.id = "" || st.1.contains t.id then augArtistScan take lowerSeedNames rest st
      else
        let payloadNames := t.artists.filter (· ≠ "")
        let lowerPayloads := payloadNames.map strLower
        if !lowerPayloads.isEmpty && !(lowerPayloads.any (lowerSeedNames.contains ·)) then
          augArtistScan take lowerSeedNames rest st
        else
          let pair := _norm_pair t.name (payloadNames.headD "")
          if st.2.1.contains pair then augArtistScan take lowerSeedNames rest st
          else
            let st' := (st.1 ++ [t.id], st.2.1 ++ [pair], st.2.2 ++ [t])
            if take ≤ (st'.2.2.length : Int) then (st', true)
            else augArtistScan take lowerSeedNames rest st'

/-- Per-artist loop of `_augment_from_artist_search`. -/
def augArtistLoop (env : Env) (market : Option String) (take : Int)
    (artistNames : List String) :
    List String → List String × List String × List Td → List Td
  | [], st => st.2.2
  | artistName :: rest, st =>
      match env.client.search_tracks_raw ("artist:\"" ++ artistName ++ "\"") 25 market with
      | .error _ => augArtistLoop env market take artistNames rest st
      | .ok results =>
          let lowerSeedNames := artistNames.map strLower
          let (st', done) := augArtistScan take lowerSeedNames results st
          if done then st'.2.2 else augArtistLoop env market take artistNames rest st'

/-- `_augment_from_artist_search`. -/
def _augment_from_artist_search (env : Env) (artistNames : List String) (existing : List Td)
    (market : Option String) (take : Int) : List Td :=
  if take ≤ 0 || artistNames.isEmpty then []
  else
    let existingIds := ((existing.filter (fun t => t.id ≠ "")).map (·.id))
    let seenPairs := existing.map (fun t => _norm_pair t.name (t.artists.headD ""))
    augArtistLoop env market take artistNames artistNames (existingIds, seenPairs, [])

/-- First loop of `_apply_history_filter`: split ranked candidates into fresh
picks and previously-served leftovers, stopping once `limit` picks are taken.
Arguments after the candidate list: ids seen so far, picks, leftovers. -/
def histPhase1 (histSet : List String) (limit : Int) :
    List Td → List String → List Td → List Td → List Td × List Td × List String
  | [], seen, filt, left => (filt, left, seen)
  | t :: rest, seen, filt, left =>
      if t.id = "" || seen.contains t.id then histPhase1 histSet limit rest seen filt left
      else
        let seen' := seen ++ [t.id]
        if histSet.contains t.id then histPhase1 histSet limit rest seen' filt (left ++ [t])
        else
          let filt' := filt ++ [t]
          if limit ≤ (filt'.length : Int) then (filt', left, seen')
          else histPhase1 histSet limit rest seen' filt' left

/-- Second loop of `_apply_history_filter`: append augmentation results not
already seen or in history. -/
def histPhase2 (histSet : List String) (limit : Int) :
    List Td → List String → List Td → List Td × List String
  | [], seen, filt => (filt, seen)
  | t :: rest, seen, filt =>
      if t.id = "" || seen.contains t.id || histSet.contains t.id then
        histPhase2 histSet limit rest seen filt
      else
        let seen' := seen ++ [t.id]
        let filt' := filt ++ [t]
        if limit ≤ (filt'.length : Int) then (filt', seen')
        else histPhase2 histSet limit rest seen' filt'

/-- Third loop of `_apply_history_filter`: backfill from the previously-served
leftovers. -/
def histPhase3 (limit : Int) : List Td → List Td → List String → List Td
  | [], filt, _ => filt
  | t :: rest, filt, existingIds =>
      if t.id = "" || existingIds.contains t.id then histPhase3 limit rest filt existingIds
      else
        let filt' := filt ++ [t]
        if limit ≤ (filt'.length : Int) then filt'
        else histPhase3 limit rest filt' (existingIds ++ [t.id])

/-- `_apply_history_filter`. -/
def _apply_history_filter (env : Env) (histMap : List (String × List String))
    (ranked basePool : List Td) (searchTerms : List String) (userKey : String)
    (limit : Int) : List Td :=
  if ranked.isEmpty then []
  else
    let history := ((dFind userKey histMap).getD []).filter (· ≠ "")
    let p1 := histPhase1 history limit ranked [] [] []
    let filt2 :=
      if (p1.1.length : Int) < limit ∧ searchTerms ≠ [] then
        let supplements := _augment_from_search_terms env searchTerms (basePool ++ ranked)
          env.market (max (limit * 2) 10)
        (histPhase2 history limit supplements p1.2.2 p1.1).1
      else p1.1
    let filt3 :=
      if (filt2.length : Int) < limit then
        histPhase3 limit p1.2.1 filt2 (filt2.map (·.id))
      else filt2
    pyTake limit filt3

/-- `del history[:-bound]` after appending: keep only the `bound` newest ids. -/
def pyTruncLast (bound : ℕ) (l : List String) : List String :=
  if bound < l.length then l.drop (l.length - bound) else l

/-- `_remember_tracks`: append served ids to the per-user history and truncate
from the oldest end at the 200 bound. -/
def _remember_tracks (histMap : List (String × List String)) (userKey : String)
    (trackIds : List String) : List (String × List String) :=
  if trackIds.isEmpty then histMap
  else
    let base := (dFind userKey histMap).getD []
    let appended := base ++ trackIds.filter (· ≠ "")
    dSet histMap userKey (pyTruncLast 200 appended)

/-- The `apply_filters` closure of `recommend`: popularity floor, locale
plausibility, id dedup (only for truthy ids, as in the source) and normalized
name/lead-artist pair dedup. -/
def apply_filters (inferredGenres : List String) (pool : List Td) (popFloor : Int)
    (marketCode : String) : List Td :=
  let step := fun (st : List String × List String × List Td) (t : Td) =>
    if t.popularity < popFloor then st
    else if !(_korean_like t inferredGenres marketCode) then st
    else if t.id ≠ "" ∧ st.1.contains t.id then st
    else
      let pairKey := _norm_pair t.name (t.artists.headD "")
      if st.2.1.contains pairKey then st
      else (st.1 ++ [t.id], st.2.1 ++ [pairKey], st.2.2 ++ [t])
  (pool.foldl step ([], [], [])).2.2

/-- The progressive popularity-floor stage of `recommend` (lines 506-513):
floor 55, then 50, then 45, re-filtering the full pool while fewer than
`limit` candidates survive. -/
def stageSelect (rawTracks : List Td) (limit : Int) (inferredGenres : List String)
    (marketVal : String) : List Td :=
  if rawTracks.isEmpty then []
  else
    let stage := apply_filters inferredGenres rawTracks 55 marketVal
    let stage := if (stage.length : Int) < limit then apply_filters inferredGenres rawTracks 50 marketVal else stage
    let stage := if (stage.length : Int) < limit then apply_filters inferredGenres rawTracks 45 marketVal else stage
    stage

/-- A Python argument that is either `None`, a dict, or something else
(the `isinstance(..., dict)` checks only need these three cases). -/
inductive PyIn where
  | none
  | dict (d : List (OKey × PyVal))
  | other

/-- The keyword arguments of `recommend`. -/
structure RecArgs where
  target_features : PyIn := .none
  target_feature_ranges : PyIn := .none
  profile : PyIn := .none
  genres : Option (List (Option String)) := Option.none
  seed_artists : Option (List (Option String)) := Option.none
  limit : Option Int := Option.none
  user_token : Option String := Option.none

/-- The Python exception kinds `recommend` can raise in the modelled fragment. -/
inductive PyErr where
  | valueError
  | typeError
  | attributeError
deriving Repr, DecidableEq

/-- One entry of the `tracks` list `recommend` assembles (the keyword payload of
the `Track(...)` construction at lines 635-649, minus the purely presentational
`summary` string, whose construction is not modelled; whether `models.Track`
accepts these keywords at all is checked separately in `recommend` below). -/
structure TrackRec where
  id : String
  name : String
  artists : List String
  external_url : String
  album_image : Option String
  audio_features : Option (List (String × ℚ))
deriving Repr, DecidableEq

/-- The payload of the final `RecommendationResult(...)` construction
(the `raw_response` bookkeeping dict is omitted: nothing reads it back). -/
structure PipeOut where
  tracks : List TrackRec
  features : List (String × ℚ)
  seed_genres : List String
  seed_artists : List String
  inferred_genres : List String
deriving Repr, DecidableEq

/-- `user_key = user_token or "__default__"`. -/
def effUserKey (ut : Option String) : String :=
  match ut with
  | some s => if s = "" then "__default__" else s
  | Option.none => "__default__"

/-- `limit = limit or self._default_limit`. -/
def effLimit (env : Env) (l : Option Int) : Int :=
  match l with
  | some n => if n = 0 then env.defaultLimit else n
  | Option.none => env.defaultLimit

/-- The genre-cleaning loop of `recommend` (lines 333-345): strip, drop
empties, deduplicate case-insensitively keeping the first spelling. -/
def cleanGenres (genres : Option (List (Option String))) : List String :=
  ((genres.getD []).foldl
    (fun (st : List String × List String) g =>
      match g with
      | Option.none => st
      | some s =>
          let cleaned := pyStrip s
          if cleaned = "" then st
          else
            let lowered := strLower cleaned
            if st.2.contains lowered then st else (st.1 ++ [cleaned], st.2 ++ [lowered]))
    ([], [])).1

/-- Seed-artist-name cleaning (lines 349-353). -/
def cleanSeedArtists (sa : Option (List (Option String))) : List String :=
  (sa.getD []).filterMap (fun o =>
    match o with
    | some s => let t := pyStrip s; if t = "" then Option.none else some t
    | Option.none => Option.none)

/-- Anchor-artist accumulation over the first genres (per-genre `try/except`
continues on failure). -/
def anchorLoop (env : Env) : List String → List ArtistLite → List ArtistLite
  | [], acc => acc
  | g :: rest, acc =>
      match env.client.search_artists_by_genre g 10 env.market with
      | .error _ => anchorLoop env rest acc
      | .ok l => anchorLoop env rest (acc ++ l)

/-- Deduplicate anchors by truthy id, keeping first occurrences. -/
def uniqueAnchors (anchors : List ArtistLite) : List ArtistLite :=
  (anchors.foldl
    (fun (st : List String × List ArtistLite) a =>
      if a.id ≠ "" ∧ ¬ st.1.contains a.id then (st.1 ++ [a.id], st.2 ++ [a]) else st)
    ([], [])).2

/-- Strict descending precedence on the `(followers, popularity)` sort key
(Python tuple order, `reverse=True`). -/
def anchorBefore (a b : ArtistLite) : Bool :=
  decide (b.followers < a.followers ∨ (b.followers = a.followers ∧ b.popularity < a.popularity))

/-- The fix61 anchor block (lines 356-377): substitute well-known artists of
the requested genres when the user named none. -/
def seedAnchorNames (env : Env) (normalizedSeedGenres : List String) : List String :=
  let anchors := anchorLoop env (normalizedSeedGenres.take 3) []
  let sorted := (stableSortBy anchorBefore (uniqueAnchors anchors)).take 5
  sorted.map (·.name)

/-- `_sanitize_raw_response`, restricted to the field read back downstream:
a missing or non-dict `per_track_jitter_hint` becomes an empty dict. -/
def _sanitize_raw_response (raw : RawResp) : RawResp :=
  { raw with jitterHint := some (raw.jitterHint.getD []) }

/-- Label-hint pool accumulation (lines 432-436): one `try` wraps the whole
loop, so the first failure aborts it but keeps what was already pooled. -/
def labelPool (env : Env) : List String → List Td → List Td
  | [], acc => acc
  | lbl :: rest, acc =>
      match env.client.search_tracks_by_label lbl 25 with
      | .error _ => acc
      | .ok l => labelPool env rest (acc ++ l)

/-- Genre free-text pool accumulation (lines 437-442): per-genre `try/except`
continues on failure. -/
def genrePool (env : Env) : List String → List Td → List Td
  | [], acc => acc
  | g :: rest, acc =>
      match env.client.search_tracks_raw g 20 Option.none with
      | .error _ => genrePool env rest acc
      | .ok l => genrePool env rest (acc ++ l)

/-- The artist-diversity pass (lines 458-470): keep the first track per
distinct lead artist; tracks without a lead artist always pass. -/
def diversityPass (pool : List Td) : List Td :=
  (pool.foldl
    (fun (st : List String × List Td) t =>
      match (t.artists.filter (· ≠ "")).head? with
      | Option.none => (st.1, st.2 ++ [t])
      | some key => if st.1.contains key then st else (st.1 ++ [key], st.2 ++ [t]))
    ([], [])).2

/-- Stable descending sort of a pool by `_score_item`. -/
def sortByScoreDesc (fexp : ℚ → ℚ) (era : Int × Int) (pool : List Td) : List Td :=
  (sortScoredDesc (pool.map (fun t => (_score_item fexp t era, t)))).map (·.2)

/-- `self._market or getattr(self._spotify_client, "market", None) or "KR"`. -/
def marketValOf (env : Env) : String :=
  let fromClient := match env.client.market with
    | some cm => if cm = "" then "KR" else cm
    | Option.none => "KR"
  match env.market with
  | some m => if m = "" then fromClient else m
  | Option.none => fromClient

/-- `seed_lookup = {name.lower(): name for name in seed_artist_names}`. -/
def seedLookup (names : List String) : List (String × String) :=
  names.foldl (fun m n => dSet m (strLower n) n) []

/-- The seed-overlap filter (lines 551-561): keep tracks whose artists overlap
the seed names and record the matched canonical names in order. -/
def seedOverlapFold (lookup : List (String × String)) (pool : List Td) :
    List Td × List String :=
  pool.foldl
    (fun (st : List Td × List String) t =>
      let lowerNames := (t.artists.filter (· ≠ "")).map strLower
      let overlap := lowerNames.filterMap (fun n => dFind n lookup)
      if overlap.isEmpty then st
      else (st.1 ++ [t],
            overlap.foldl (fun m n => if m.contains n then m else m ++ [n]) st.2))
    ([], [])

/-- The seed-artist top-tracks backfill loop (lines 570-584), with the `break`
placed before the matched-name collection exactly as in the source. -/
def extraLoop (lookup : List (String × String)) (limit : Int) (rawLen : ℕ) :
    List Td → List String → List Td → List String → List Td × List String
  | [], _, extra, matched => (extra, matched)
  | t :: rest, seen, extra, matched =>
      if t.id = "" || seen.contains t.id then
        extraLoop lookup limit rawLen rest seen extra matched
      else
        let seen' := seen ++ [t.id]
        let extra' := extra ++ [t]
        if limit ≤ ((rawLen : Int) + (extra'.length : Int)) then (extra', matched)
        else
          let matched' := t.artists.foldl
            (fun m n =>
              match dFind (strLower n) lookup with
              | some canonical =>
                  if canonical ≠ "" ∧ ¬ m.contains canonical then m ++ [canonical] else m
              | Option.none => m)
            matched
          extraLoop lookup limit rawLen rest seen' extra' matched'

/-- One iteration of the track-record build loop (lines 627-649): skip falsy
ids; collect name, truthy artist names, url, first album image and the per-id
audio features. -/
def buildTrackStep (afm : List (String × List (String × ℚ)))
    (acc : List TrackRec) (t : Td) : List TrackRec :=
  if t.id = "" then acc
  else acc ++ [{ id := t.id, name := t.name,
                 artists := t.artists.filter (· ≠ ""),
                 external_url := t.externalUrl,
                 album_image := t.albumImages.head?,
                 audio_features := dFind t.id afm }]

/-- The track-record build loop (lines 627-649). -/
def buildTracks (afm : List (String × List (String × ℚ))) (pool : List Td) : List TrackRec :=
  pool.foldl (buildTrackStep afm) []

/-- The tail of `recommend` (lines 606-649 plus the final payload assembly):
second audio-features fetch, overfetch margin, `_rank_tracks`,
`_apply_history_filter`, the track-record build loop, and the
matched-seed-artists defaulting. -/
def pipelineFinish (env : Env) (histMap : List (String × List String)) (userKey : String)
    (searchTerms : List String) (responseTarget jitterHint : List (String × ℚ))
    (applied : List (String × ℚ)) (usedGenres inferredGenres : List String)
    (seedArtistNames matched : List String) (limit : Int) (rawTracks7 : List Td) : PipeOut :=
  let trackIds := (rawTracks7.filter (fun t => t.id ≠ "")).map (·.id)
  let afm := if ¬ trackIds.isEmpty then env.client.get_audio_features trackIds else []
  let extraMargin : Int := if (rawTracks7.length : Int) > limit then 5 else 0
  let rankLimit : Int :=
    if ¬ rawTracks7.isEmpty then min (rawTracks7.length : Int) (limit + extraMargin) else limit
  let ranked := _rank_tracks env rawTracks7 afm responseTarget jitterHint rankLimit
  let filteredRanked := _apply_history_filter env histMap ranked rawTracks7 searchTerms userKey limit
  let tracks := buildTracks afm filteredRanked
  let matchedFinal := if matched.isEmpty ∧ ¬ seedArtistNames.isEmpty then seedArtistNames else matched
  { tracks := tracks, features := applied, seed_genres := usedGenres,
    seed_artists := matchedFinal, inferred_genres := inferredGenres }

/-- The body of `recommend` from input validation (line 310) through the track
build loop (line 649), excluding the state write and the dataclass
constructions themselves (see `recommendSelect` and `recommend`).  The one
internal raise point is the audio-features loop at lines 515-518, which
iterates the returned dict and calls `.get` on its string keys: any truthy key
raises `AttributeError` (falsy keys short-circuit the `if features and ...`). -/
def recommendPipeline (env : Env) (st : SvcState) (args : RecArgs) : Except PyErr PipeOut :=
  let tf0 := match args.target_features, args.profile with
    | PyIn.none, p => p
    | t, _ => t
  let declared : Option (List (OKey × PyVal)) := match args.target_feature_ranges with
    | PyIn.dict d => some d
    | _ => Option.none
  let tf1 := match tf0, declared with
    | PyIn.none, some _ => PyIn.dict []
    | t, _ => t
  match tf1 with
  | PyIn.dict tfd =>
    let norm := _normalize_target_features (some tfd) declared
    let featureRanges := norm.2
    let centers :=
      if norm.1.isEmpty ∧ ¬ featureRanges.isEmpty then
        featureRanges.map (fun kv => (kv.1, kv.2.target))
      else norm.1
    let limit := effLimit env args.limit
    let requested := centers
    let sampled := _sample_target_features env.rng centers featureRanges
    let userKey := effUserKey args.user_token
    let inferredGenres := cleanGenres args.genres
    let normalizedSeedGenres := env.client.normalize_genres inferredGenres
    let seedArtistNames0 := cleanSeedArtists args.seed_artists
    let seedArtistNames :=
      if seedArtistNames0.isEmpty ∧ ¬ normalizedSeedGenres.isEmpty then
        let anchors := seedAnchorNames env normalizedSeedGenres
        if anchors.isEmpty then seedArtistNames0 else anchors
      else seedArtistNames0
    let resolved :=
      if ¬ seedArtistNames.isEmpty then env.client.resolve_artist_ids seedArtistNames env.market
      else []
    let seedArtistIds := resolved.map (·.2)
    let targetPayload0 := if ¬ sampled.isEmpty then sampled else requested
    let targetPayload := if targetPayload0.isEmpty then requested else targetPayload0
    let rec0 := env.client.get_recommendations targetPayload featureRanges
      normalizedSeedGenres seedArtistIds limit env.market
    let raw := _sanitize_raw_response rec0.1
    let applied := if rec0.2.1.isEmpty then targetPayload else rec0.2.1
    let responseTarget :=
      if ¬ raw.targetFeatures.isEmpty then raw.targetFeatures
      else if ¬ applied.isEmpty then applied
      else requested
    let jitterHint := raw.jitterHint.getD []
    let usedGenres := if rec0.2.2.isEmpty then normalizedSeedGenres else rec0.2.2
    let originalTracks := raw.tracks
    let rawTracks1 := originalTracks.filter (fun t => 40 ≤ t.popularity)
    let searchTerms := _collect_search_terms normalizedSeedGenres inferredGenres
    let rawTracks2 :=
      if rawTracks1.isEmpty then
        let pool0 := labelPool env (raw.labelHints.take 4) []
        let pool1 := if pool0.isEmpty then genrePool env (normalizedSeedGenres.take 3) [] else pool0
        let eraWindow := _era_from_context inferredGenres seedArtistNames
        let pool2 := pool1.filter (fun t => t.id ≠ "")
        let afterPool :=
          if ¬ pool2.isEmpty then pyTake limit (sortByScoreDesc env.fexp eraWindow pool2)
          else rawTracks1
        if afterPool.isEmpty then
          let aug := _augment_from_search_terms env searchTerms afterPool env.market limit
          if aug.isEmpty then originalTracks else aug
        else afterPool
      else rawTracks1
    let diverse := diversityPass rawTracks2
    let rawTracks3 := if ¬ diverse.isEmpty then diverse else rawTracks2
    let eraWindow := _era_from_context inferredGenres seedArtistNames
    let rawTracks4 :=
      if ¬ rawTracks3.isEmpty then sortByScoreDesc env.fexp eraWindow rawTracks3 else rawTracks3
    let marketVal := marketValOf env
    let stage := stageSelect rawTracks4 limit inferredGenres marketVal
    let stageRes : Except PyErr (List Td) :=
      if stage.isEmpty then .ok rawTracks4
      else
        let featsList := env.client.get_audio_features (stage.map (·.id))
        if featsList.any (fun kv => kv.1 ≠ "") then .error .attributeError
        else
          -- all keys were falsy, so the loop adds nothing and feat_map stays empty
          let featMap : List (String × List (String × ℚ)) := []
          let scoredStage := stage.map (fun t =>
            let features := (dFind t.id featMap).getD []
            let distance := _feature_distance env.fsqrt features responseTarget
            (-distance + (t.popularity : ℚ) / 200, t))
          .ok ((pyTake limit (sortScoredDesc scoredStage)).map (·.2))
    Except.map (fun rawTracks5 =>
      let rawTracks6 :=
        if (rawTracks5.length : Int) < limit then
          let supplements := _augment_from_search_terms env searchTerms rawTracks5 env.market
            (limit - (rawTracks5.length : Int))
          if ¬ supplements.isEmpty then
            let r7 := apply_filters inferredGenres (rawTracks5 ++ supplements) 40 marketVal
            if (r7.length : Int) < limit then
              let refill := _augment_from_search_terms env searchTerms r7 env.market
                (limit - (r7.length : Int))
              if ¬ refill.isEmpty then apply_filters inferredGenres (r7 ++ refill) 40 marketVal
              else r7
            else r7
          else rawTracks5
        else rawTracks5
      let seedSec : List Td × List String :=
        if seedArtistNames.isEmpty then (rawTracks6, [])
        else
          let lookup := seedLookup seedArtistNames
          let overlapRes := seedOverlapFold lookup rawTracks6
          let rawA := if ¬ overlapRes.1.isEmpty then overlapRes.1 else rawTracks6
          let stB : List Td × List String :=
            if ¬ seedArtistIds.isEmpty ∧ (rawA.length : Int) < limit then
              let fallbackTracks := env.client.get_artist_top_tracks seedArtistIds env.market (limit * 2)
              let seenIds := (rawA.filter (fun t => t.id ≠ "")).map (·.id)
              let extraRes := extraLoop lookup limit rawA.length fallbackTracks seenIds [] overlapRes.2
              if ¬ extraRes.1.isEmpty then (rawA ++ extraRes.1, extraRes.2) else (rawA, extraRes.2)
            else (rawA, overlapRes.2)
          let stC : List Td × List String :=
            if stB.1.isEmpty ∧ ¬ seedArtistIds.isEmpty then
              let fallbackTracks := env.client.get_artist_top_tracks seedArtistIds env.market limit
              if ¬ fallbackTracks.isEmpty then (fallbackTracks, seedArtistNames) else stB
            else stB
          let rawD :=
            if (stC.1.length : Int) < limit then
              let artistSupps := _augment_from_artist_search env seedArtistNames stC.1 env.market
                (limit - (stC.1.length : Int))
              if ¬ artistSupps.isEmpty then stC.1 ++ artistSupps else stC.1
            else stC.1
          (rawD, stC.2)
      pipelineFinish env st.hist userKey searchTerms responseTarget jitterHint
        applied usedGenres inferredGenres seedArtistNames seedSec.2 limit seedSec.1)
      stageRes
  | _ => .error .valueError

/-- The pipeline together with its state effect: on success the served ids are
appended to the per-user history (line 651); nothing else touches state.  This
is `recommend` as the service module intends it, i.e. with the two dataclass
constructions succeeding; the bundled `models.py` makes them raise instead,
which `recommend` below accounts for. -/
def recommendSelect (env : Env) (st : SvcState) (args : RecArgs) :
    SvcState × Except PyErr PipeOut :=
  match recommendPipeline env st args with
  | .error e => (st, .error e)
  | .ok out =>
      (⟨_remember_tracks st.hist (effUserKey args.user_token) (out.tracks.map (·.id))⟩, .ok out)

/-- The field list of the `Track` dataclass in models.py. -/
def trackFields : List String :=
  ["id", "name", "artists", "external_url", "album_image", "audio_features",
   "popularity", "target_features", "seed_artists", "seed_tracks"]

/-- The field list of the `RecommendationResult` dataclass in models.py. -/
def recommendationResultFields : List String :=
  ["features", "seed_genres", "inferred_genres", "tracks", "feature_plan",
   "requested_artists", "seed_artists", "seed_tracks", "raw_responses"]

/-- The keyword names `recommend` passes to `Track(...)` (lines 636-648). -/
def trackCtorKwargs : List String :=
  ["id", "name", "artists", "external_url", "album_image", "audio_features", "summary"]

/-- The keyword names `recommend` passes to `RecommendationResult(...)`
(lines 656-663). -/
def recommendationResultCtorKwargs : List String :=
  ["features", "seed_genres", "seed_artists", "inferred_genres", "tracks", "raw_response"]

/-- A dataclass-generated `__init__` accepts a keyword call iff every keyword
names a field (otherwise CPython raises `TypeError`; every field here has a
default, so missing keywords never raise). -/
def dataclassCallOk (fields kwargs : List String) : Bool :=
  kwargs.all (fields.contains ·)

/-- Full `recommend` against the dataclasses actually defined in models.py:
the first `Track(...)` construction (inside the build loop, before the history
write) and the final `RecommendationResult(...)` construction are guarded by
`dataclassCallOk`; a rejected keyword raises `TypeError` at exactly the point
the source would. -/
def recommend (env : Env) (st : SvcState) (args : RecArgs) :
    SvcState × Except PyErr PipeOut :=
  match recommendPipeline env st args with
  | .error e => (st, .error e)
  | .ok out =>
      if ¬ out.tracks.isEmpty ∧ ¬ dataclassCallOk trackFields trackCtorKwargs then
        (st, .error .typeError)
      else
        let st' : SvcState :=
          ⟨_remember_tracks st.hist (effUserKey args.user_token) (out.tracks.map (·.id))⟩
        if ¬ dataclassCallOk recommendationResultFields recommendationResultCtorKwargs then
          (st', .error .typeError)
        else (st', .ok out)

/-! ## Specification-side definitions

The following definitions transcribe the words of the specification (not the
source); they exist to be compared with the source-derived definitions above. -/

/-- Spec wording for `_feature_distance`: the per-feature scale divisor
(`tempo` scaled by 50, `loudness` by 10, the rest taken directly). -/
def specScaleOf (k : String) : ℚ :=
  if k = "tempo" then 50 else if k = "loudness" then 10 else 1

/-- The seven feature names the distance may aggregate over. -/
def specDistanceKeys : List String := scoringKeys ++ ["tempo", "loudness"]

/-- The feature names present in both mappings, in canonical order. -/
def specCommonKeys (feats target : List (String × ℚ)) : List String :=
  specDistanceKeys.filter (fun k => (dFind k feats).isSome && (dFind k target).isSome)

/-- Spec wording: the mean of squared scaled deltas over the shared features. -/
def specMeanSq (feats target : List (String × ℚ)) : ℚ :=
  (((specCommonKeys feats target).map (fun k =>
      (((dFind k feats).getD 0 - (dFind k target).getD 0) / specScaleOf k) ^ 2)).sum)
    / (((specCommonKeys feats target).length : ℚ))

/-- The era bonus of `_score_item`, factored for reference in claim C7. -/
def eraBonusOf (fexp : ℚ → ℚ) (t : Td) (era : Int × Int) : ℚ :=
  let year := _extract_release_year t
  if era.1 ≠ 0 ∧ year ≠ 0 then
    if era.1 ≤ year ∧ year ≤ era.2 then
      let center : ℚ := ((era.1 : ℚ) + (era.2 : ℚ)) / 2
      let width : ℚ := max 1 (((era.2 : ℚ) - (era.1 : ℚ)) / 2)
      fexp (-(((year : ℚ) - center) ^ 2) / (2 * width * width)) * 0.6
    else -0.2
  else 0

/-- The remaster penalty of `_score_item`, factored for reference in claim C7. -/
def remasterPenaltyOf (t : Td) : ℚ := if _is_remaster_like t then -0.25 else 0

/-- The score claim C7 asserts for the final ranking step:
`-distance + popularity_bonus + jitter + era_bonus + remaster_penalty` plus the
positional tiebreaker (spec section 4.5). -/
def specClaimScore (env : Env) (afm : List (String × List (String × ℚ)))
    (targetFeatures jitterHint : List (String × ℚ)) (era : Int × Int)
    (index : ℕ) (t : Td) : ℚ :=
  let features := (dFind t.id afm).getD []
  let distance := if targetFeatures.isEmpty then 1 else _feature_distance env.fsqrt features targetFeatures
  let popularityBonus := (t.popularity : ℚ) / 200
  let jitterScore := _jitter_score env t.id targetFeatures jitterHint
  let stability := -(index : ℚ) * 1e-5
  (-distance) + popularityBonus + jitterScore + eraBonusOf env.fexp t era + remasterPenaltyOf t + stability

/-- The score the final ranking step actually assigns (claim C7 as amended):
no era bonus and no remaster penalty. -/
def amendedScoreOf (env : Env) (afm : List (String × List (String × ℚ)))
    (targetFeatures jitterHint : List (String × ℚ)) (index : ℕ) (t : Td) : ℚ :=
  let features := (dFind t.id afm).getD []
  let distance := if targetFeatures.isEmpty then 1 else _feature_distance env.fsqrt features targetFeatures
  let popularityBonus := (t.popularity : ℚ) / 200
  let jitterScore := _jitter_score env t.id targetFeatures jitterHint
  let stability := -(index : ℚ) * 1e-5
  (-distance) + popularityBonus + jitterScore + stability

/-- Progressive floor relaxation as the spec describes it: take the first floor
whose filter pass keeps at least `limit` candidates, bottoming out at the last
floor. -/
def relaxFloors (inferredGenres : List String) (raw : List Td) (marketVal : String)
    (limit : Int) : List Int → List Td
  | [] => []
  | [f] => apply_filters inferredGenres raw f marketVal
  | f :: rest =>
      let s := apply_filters inferredGenres raw f marketVal
      if (s.length : Int) < limit then relaxFloors inferredGenres raw marketVal limit rest
      else s

/-- The staged pool claim C9 describes: floors 55, 50, 45, 40. -/
def claimStagedPool (raw : List Td) (limit : Int) (inferredGenres : List String)
    (marketVal : String) : List Td :=
  if raw.isEmpty then [] else relaxFloors inferredGenres raw marketVal limit [55, 50, 45, 40]

/-! ## Concrete fixtures for witnesses and counterexamples -/

/-- A catalog capability that returns nothing anywhere. -/
def emptyClient : Client where
  normalize_genres := fun _ => []
  search_artists_by_genre := fun _ _ _ => .ok []
  resolve_artist_ids := fun _ _ => []
  get_recommendations := fun _ _ _ _ _ _ => ({}, [], [])
  search_tracks_by_label := fun _ _ => .ok []
  search_tracks_raw := fun _ _ _ => .ok []
  get_artist_top_tracks := fun _ _ _ => []
  get_audio_features := fun _ => []

/-- An environment over the empty catalog. -/
def envEmpty : Env := { client := emptyClient }

/-- A minimal valid target-features argument: `{"energy": 0.5}`. -/
def tfEnergy : PyIn := .dict [(some "energy", PyVal.num (1/2))]

/-! ## Lemmas about the dict model -/

theorem dFind_dSet_self {β : Type} (m : List (String × β)) (k : String) (v : β) :
    dFind k (dSet m k v) = some v := by
  induction m with
  | nil => simp [dSet, dFind]
  | cons hd tl ih =>
      by_cases h : hd.1 = k
      · simp [dSet, h, dFind]
      · simp [dSet, h, dFind, ih]

theorem dFind_dSet_ne {β : Type} (m : List (String × β)) (k k' : String) (v : β)
    (h : k' ≠ k) : dFind k' (dSet m k v) = dFind k' m := by
  have hkk : ¬ k = k' := fun hk => h hk.symm
  induction m with
  | nil => simp [dSet, dFind, hkk]
  | cons hd tl ih =>
      by_cases hh : hd.1 = k
      · subst hh
        simp only [dSet, if_pos rfl, dFind]
        rw [if_neg hkk, if_neg hkk]
      · simp only [dSet, if_neg hh, dFind]
        by_cases h2 : hd.1 = k'
        · simp [h2]
        · simp [h2, ih]

theorem remember_frame (m : List (String × List String)) (k v : String)
    (ids : List String) (h : v ≠ k) :
    dFind v (_remember_tracks m k ids) = dFind v m := by
  unfold _remember_tracks
  by_cases he : ids.isEmpty
  · simp [he]
  · simp only [he, Bool.false_eq_true, if_false]
    exact dFind_dSet_ne _ _ _ _ h

/-! ## Claim C10: per-user history isolation -/

/-- Claim C10: a `recommend` call with user key `u` modifies only the history
entry of `u`: for every other user key `v`, the stored history for `v` after
the call (over `recommendSelect`, the pipeline with its state write) equals
the one before. -/
theorem claim_C10_history_isolation (env : Env) (st : SvcState) (args : RecArgs)
    (v : String) (h : v ≠ effUserKey args.user_token) :
    dFind v (recommendSelect env st args).1.hist = dFind v st.hist := by
  unfold recommendSelect
  cases hp : recommendPipeline env st args with
  | error e => rfl
  | ok out => exact remember_frame _ _ _ _ h

/-- Witness for C10: concrete two-user instance; the unrelated user keeps the
history it had. -/
theorem claim_C10_witness :
    dFind "v" (recommendSelect envEmpty ⟨[("v", ["x"])]⟩
      { target_features := tfEnergy, user_token := some "u" }).1.hist
      = dFind "v" (⟨[("v", ["x"])]⟩ : SvcState).hist :=
  claim_C10_history_isolation envEmpty ⟨[("v", ["x"])]⟩
    { target_features := tfEnergy, user_token := some "u" } "v" (by decide)

/-! ## Claim C1: recommend never returns a RecommendationResult -/

/-- Claim C1 (code bug): with the dataclasses defined in models.py, no call to
`recommend` returns a result: every run raises — at the latest a `TypeError`
from `RecommendationResult(..., raw_response=...)` (the dataclass field is
`raw_responses` and `Track` has no `summary` field), on any input, valid or
not. -/
theorem claim_C1_recommend_never_returns (env : Env) (st : SvcState) (args : RecArgs)
    (out : PipeOut) : (recommend env st args).2 ≠ Except.ok out := by
  intro h
  have hT : dataclassCallOk trackFields trackCtorKwargs = false := by decide
  have hR : dataclassCallOk recommendationResultFields recommendationResultCtorKwargs = false := by
    decide
  unfold recommend at h
  cases hp : recommendPipeline env st args with
  | error e => rw [hp] at h; exact Except.noConfusion h
  | ok o =>
      rw [hp] at h
      simp only [hT, hR, Bool.false_eq_true, not_false_eq_true, and_true, ite_not] at h
      by_cases he : o.tracks.isEmpty <;> simp [he] at h

/-- Witness for C1: the concrete empty-catalog call, which the service intends
to answer with an empty result, raises instead. -/
theorem claim_C1_witness :
    (recommend envEmpty ⟨[]⟩ { target_features := tfEnergy }).2
      ≠ Except.ok ⟨[], [], [], [], []⟩ :=
  claim_C1_recommend_never_returns envEmpty ⟨[]⟩ { target_features := tfEnergy }
    ⟨[], [], [], [], []⟩

/-! ## Claim C9: progressive popularity floors -/

theorem apply_filters_pop_ge (genres : List String) (pool : List Td) (f : Int)
    (market : String) : ∀ t ∈ apply_filters genres pool f market, f ≤ t.popularity := by
  unfold apply_filters
  suffices h : ∀ (st : List String × List String × List Td),
      (∀ t ∈ st.2.2, f ≤ t.popularity) →
      ∀ t ∈ (pool.foldl (fun st t =>
          if t.popularity < f then st
          else if !(_korean_like t genres market) then st
          else if t.id ≠ "" ∧ st.1.contains t.id then st
          else
            let pairKey := _norm_pair t.name (t.artists.headD "")
            if st.2.1.contains pairKey then st
            else (st.1 ++ [t.id], st.2.1 ++ [pairKey], st.2.2 ++ [t])) st).2.2,
        f ≤ t.popularity by
    exact h ([], [], []) (by simp)
  induction pool with
  | nil => intro st hst t ht; exact hst t ht
  | cons hd tl ih =>
      intro st hst t ht
      simp only [List.foldl_cons] at ht
      by_cases h1 : hd.popularity < f
      · exact ih st hst t (by simpa [h1] using ht)
      · by_cases h2 : _korean_like hd genres market = false
        · exact ih st hst t (by simpa [h1, h2] using ht)
        · by_cases h3 : ¬ hd.id = "" ∧ hd.id ∈ st.1
          · exact ih st hst t (by simpa [h1, h2, h3] using ht)
          · by_cases h4 : _norm_pair hd.name (hd.artists.head?.getD "") ∈ st.2.1
            · exact ih st hst t (by simpa [h1, h2, h3, h4] using ht)
            · refine ih _ ?_ t (by simpa [h1, h2, h3, h4] using ht)
              intro u hu
              rcases List.mem_append.mp hu with hu | hu
              · exact hst u hu
              · rcases List.mem_singleton.mp hu with rfl
                exact Int.not_lt.mp h1

/-- Claim C9 (amended): the staged pool equals progressive relaxation over the
floors 55, 50, 45 (not 40 — the 40 floor appears only in the later
search-supplement refill), and every staged candidate has popularity at least
45, the floor the relaxation bottoms out at. -/
theorem claim_C9_floor_relaxation (raw : List Td) (limit : Int) (genres : List String)
    (market : String) :
    stageSelect raw limit genres market =
      (if raw.isEmpty then [] else relaxFloors genres raw market limit [55, 50, 45]) ∧
    ∀ t ∈ stageSelect raw limit genres market, 45 ≤ t.popularity := by
  have heq : stageSelect raw limit genres market =
      (if raw.isEmpty then [] else relaxFloors genres raw market limit [55, 50, 45]) := by
    by_cases h0 : raw.isEmpty
    · simp [stageSelect, h0]
    · by_cases h1 : ((apply_filters genres raw 55 market).length : Int) < limit
      · by_cases h2 : ((apply_filters genres raw 50 market).length : Int) < limit
        · simp [stageSelect, relaxFloors, h0, h1, h2]
        · simp [stageSelect, relaxFloors, h0, h1, h2]
      · simp [stageSelect, relaxFloors, h0, h1]
  refine ⟨heq, ?_⟩
  rw [heq]
  by_cases h0 : raw.isEmpty
  · simp [h0]
  · simp only [h0, Bool.false_eq_true, if_false]
    by_cases h1 : ((apply_filters genres raw 55 market).length : Int) < limit
    · by_cases h2 : ((apply_filters genres raw 50 market).length : Int) < limit
      · simp only [relaxFloors, h1, h2, if_pos]
        intro t ht
        exact apply_filters_pop_ge genres raw 45 market t ht
      · simp only [relaxFloors, h1, h2, if_pos, if_neg]
        intro t ht
        exact le_trans (by decide) (apply_filters_pop_ge genres raw 50 market t ht)
    · simp only [relaxFloors, h1, if_neg]
      intro t ht
      exact le_trans (by decide) (apply_filters_pop_ge genres raw 55 market t ht)

/-- A candidate with popularity 42: kept by the floor-40 pass the claim
prescribes, dropped by the floor-45 pass the code bottoms out at. -/
def tdPop42 : Td := { id := "x", name := "a", artists := ["ar"], popularity := 42 }

/-- Counterexample for C9 as stated: with a single candidate of popularity 42
and limit 1, the staged pool of the code is empty, while the 55-50-45-40
relaxation the claim describes returns the candidate. -/
theorem claim_C9_counterexample :
    stageSelect [tdPop42] 1 [] "KR" ≠ claimStagedPool [tdPop42] 1 [] "KR" ∧
    stageSelect [tdPop42] 1 [] "KR" = [] ∧
    claimStagedPool [tdPop42] 1 [] "KR" = [tdPop42] := by
  refine ⟨?_, ?_, ?_⟩
  · intro h
    have h1 : stageSelect [tdPop42] 1 [] "KR" = [] := by with_unfolding_all rfl
    have h2 : claimStagedPool [tdPop42] 1 [] "KR" = [tdPop42] := by with_unfolding_all rfl
    rw [h1, h2] at h
    exact List.noConfusion h
  · with_unfolding_all rfl
  · with_unfolding_all rfl

/-! ## Claim C4: history filter never starves a non-empty ranked list -/

theorem histPhase1_filt_prefix (histSet : List String) (limit : Int) :
    ∀ (ranked : List Td) (seen : List String) (filt left : List Td),
      filt <+: (histPhase1 histSet limit ranked seen filt left).1 := by
  intro ranked
  induction ranked with
  | nil => intro seen filt left; simp [histPhase1]
  | cons t rest ih =>
      intro seen filt left
      simp only [histPhase1]
      split
      · exact ih seen filt left
      · split
        · exact ih (seen ++ [t.id]) filt (left ++ [t])
        · split
          · simpa using List.prefix_append filt [t]
          · exact (List.prefix_append filt [t]).trans (ih (seen ++ [t.id]) (filt ++ [t]) left)

theorem histPhase1_left_prefix (histSet : List String) (limit : Int) :
    ∀ (ranked : List Td) (seen : List String) (filt left : List Td),
      left <+: (histPhase1 histSet limit ranked seen filt left).2.1 := by
  intro ranked
  induction ranked with
  | nil => intro seen filt left; simp [histPhase1]
  | cons t rest ih =>
      intro seen filt left
      simp only [histPhase1]
      split
      · exact ih seen filt left
      · split
        · exact (List.prefix_append left [t]).trans (ih (seen ++ [t.id]) filt (left ++ [t]))
        · split
          · simp
          · exact ih (seen ++ [t.id]) (filt ++ [t]) left

theorem histPhase1_all_blocked (histSet : List String) (limit : Int) :
    ∀ (ranked : List Td) (seen : List String) (filt left : List Td),
      (histPhase1 histSet limit ranked seen filt left).1 = [] →
      (histPhase1 histSet limit ranked seen filt left).2.1 = [] →
      ∀ t ∈ ranked, t.id = "" ∨ seen.contains t.id = true := by
  intro ranked
  induction ranked with
  | nil => intro seen filt left _ _ t ht; exact absurd ht (List.not_mem_nil t)
  | cons u rest ih =>
      intro seen filt left hf hl t ht
      simp only [histPhase1] at hf hl
      split at hf
      · rename_i h1
        rw [if_pos h1] at hl
        rcases List.mem_cons.mp ht with rfl | ht
        · rcases Bool.or_eq_true_iff.mp h1 with h | h
          · exact Or.inl (by simpa using h)
          · exact Or.inr h
        · exact ih seen filt left hf hl t ht
      · rename_i h1
        rw [if_neg h1] at hl
        exfalso
        split at hf
        · rename_i h2
          rw [if_pos h2] at hl
          have hpre := histPhase1_left_prefix histSet limit rest (seen ++ [u.id]) filt (left ++ [u])
          rw [hl] at hpre
          have := hpre.length_le
          simp at this
        · rename_i h2
          rw [if_neg h2] at hl
          split at hf
          · rename_i h3
            have := congrArg List.length hf
            simp at this
          · rename_i h3
            have hpre := histPhase1_filt_prefix histSet limit rest (seen ++ [u.id]) (filt ++ [u]) left
            rw [hf] at hpre
            have := hpre.length_le
            simp at this

theorem histPhase1_left_ids (histSet : List String) (limit : Int) :
    ∀ (ranked : List Td) (seen : List String) (filt left : List Td),
      ∀ t ∈ (histPhase1 histSet limit ranked seen filt left).2.1, t ∈ left ∨ t.id ≠ "" := by
  intro ranked
  induction ranked with
  | nil => intro seen filt left t ht; exact Or.inl (by simpa [histPhase1] using ht)
  | cons u rest ih =>
      intro seen filt left t ht
      simp only [histPhase1] at ht
      split at ht
      · exact ih seen filt left t ht
      · rename_i h1
        split at ht
        · rcases ih (seen ++ [u.id]) filt (left ++ [u]) t ht with hm | hid
          · rcases List.mem_append.mp hm with hm | hm
            · exact Or.inl hm
            · rcases List.mem_singleton.mp hm with rfl
              right
              intro he
              simp [he] at h1
          · exact Or.inr hid
        · split at ht
          · exact Or.inl (by simpa using ht)
          · exact ih (seen ++ [u.id]) (filt ++ [u]) left t ht

theorem histPhase2_filt_prefix (histSet : List String) (limit : Int) :
    ∀ (supp : List Td) (seen : List String) (filt : List Td),
      filt <+: (histPhase2 histSet limit supp seen filt).1 := by
  intro supp
  induction supp with
  | nil => intro seen filt; simp [histPhase2]
  | cons t rest ih =>
      intro seen filt
      simp only [histPhase2]
      split
      · exact ih seen filt
      · split
        · simpa using List.prefix_append filt [t]
        · exact (List.prefix_append filt [t]).trans (ih (seen ++ [t.id]) (filt ++ [t]))

theorem histPhase3_all_blocked (limit : Int) :
    ∀ (left filt : List Td) (ex : List String),
      histPhase3 limit left filt ex = [] →
      filt = [] ∧ ∀ t ∈ left, t.id = "" ∨ ex.contains t.id = true := by
  intro left
  induction left with
  | nil =>
      intro filt ex h
      exact ⟨by simpa [histPhase3] using h, fun t ht => absurd ht (List.not_mem_nil t)⟩
  | cons u rest ih =>
      intro filt ex h
      simp only [histPhase3] at h
      split at h
      · rename_i h1
        obtain ⟨hf, hrest⟩ := ih filt ex h
        refine ⟨hf, fun t ht => ?_⟩
        rcases List.mem_cons.mp ht with rfl | ht
        · rcases Bool.or_eq_true_iff.mp h1 with hh | hh
          · exact Or.inl (by simpa using hh)
          · exact Or.inr hh
        · exact hrest t ht
      · exfalso
        split at h
        · have := congrArg List.length h
          simp at this
        · obtain ⟨hf, _⟩ := ih (filt ++ [u]) (ex ++ [u.id]) h
          have := congrArg List.length hf
          simp at this

theorem pyTake_ne_nil {α : Type} (n : Int) (l : List α) (hn : 0 < n) (hl : l ≠ []) :
    pyTake n l ≠ [] := by
  unfold pyTake
  rw [if_pos (le_of_lt hn)]
  intro h
  rcases List.take_eq_nil_iff.mp h with h | h
  · omega
  · exact hl h

/-- Claim C4 (amended): for every ranked list containing at least one candidate
with a non-empty id, and every positive limit, `_apply_history_filter` returns
a non-empty list — even when the whole ranked list is in the user history and
augmentation yields nothing, the previously-served leftovers are returned. -/
theorem claim_C4_history_soft (env : Env) (histMap : List (String × List String))
    (ranked basePool : List Td) (terms : List String) (userKey : String) (limit : Int)
    (hlim : 0 < limit) (hex : ∃ t ∈ ranked, t.id ≠ "") :
    _apply_history_filter env histMap ranked basePool terms userKey limit ≠ [] := by
  obtain ⟨tx, htx, hidx⟩ := hex
  have hr : ¬ ranked.isEmpty := by
    cases ranked with
    | nil => exact absurd htx (List.not_mem_nil tx)
    | cons a l => simp
  unfold _apply_history_filter
  simp only [hr, Bool.false_eq_true, if_false]
  intro hcontra
  set history := ((dFind userKey histMap).getD []).filter (· ≠ "") with hh
  set p1 := histPhase1 history limit ranked [] [] [] with hp1
  set filt2 := (if (p1.1.length : Int) < limit ∧ terms ≠ [] then
      (histPhase2 history limit
        (_augment_from_search_terms env terms (basePool ++ ranked) env.market (max (limit * 2) 10))
        p1.2.2 p1.1).1
    else p1.1) with hf2
  set filt3 := (if (filt2.length : Int) < limit then
      histPhase3 limit p1.2.1 filt2 (filt2.map (·.id))
    else filt2) with hf3
  have h3e : filt3 = [] := by
    by_contra hne
    exact pyTake_ne_nil limit filt3 hlim hne hcontra
  have hf2e : filt2 = [] := by
    rw [hf3] at h3e
    by_cases hc : (filt2.length : Int) < limit
    · rw [if_pos hc] at h3e
      exact (histPhase3_all_blocked limit p1.2.1 filt2 (filt2.map (·.id)) h3e).1
    · rw [if_neg hc] at h3e
      exact h3e
  have hp1e : p1.1 = [] := by
    rw [hf2] at hf2e
    by_cases hc : (p1.1.length : Int) < limit ∧ terms ≠ []
    · rw [if_pos hc] at hf2e
      have hpre := histPhase2_filt_prefix history limit
        (_augment_from_search_terms env terms (basePool ++ ranked) env.market (max (limit * 2) 10))
        p1.2.2 p1.1
      rw [hf2e] at hpre
      exact List.prefix_nil.mp hpre
    · rw [if_neg hc] at hf2e
      exact hf2e
  have hlefte : p1.2.1 = [] := by
    have hc : (filt2.length : Int) < limit := by
      rw [hf2e]
      simpa using hlim
    rw [hf3, if_pos hc] at h3e
    obtain ⟨_, hblocked⟩ := histPhase3_all_blocked limit p1.2.1 filt2 (filt2.map (·.id)) h3e
    by_contra hne
    obtain ⟨t, ht⟩ := List.exists_mem_of_ne_nil p1.2.1 hne
    rcases histPhase1_left_ids history limit ranked [] [] [] t ht with hm | hid
    · exact absurd hm (List.not_mem_nil t)
    · rcases hblocked t ht with h | h
      · exact hid h
      · rw [hf2e] at h
        simpa using h
  have := histPhase1_all_blocked history limit ranked [] [] [] hp1e hlefte tx htx
  rcases this with h | h
  · exact hidx h
  · simpa using h

/-- A candidate record with no id (a dict whose `id` is missing or empty). -/
def tdNoId : Td := {}

/-- Counterexample for C4 as stated: a non-empty ranked list consisting of one
id-less candidate yields an empty result even with empty history. -/
theorem claim_C4_counterexample :
    _apply_history_filter envEmpty [] [tdNoId] [] [] "u" 1 = [] ∧ ([tdNoId] : List Td) ≠ [] := by
  constructor
  · with_unfolding_all rfl
  · intro h; exact List.noConfusion h

/-- A candidate with id `"x"`, used for the history-soft witness. -/
def tdX : Td := { id := "x", name := "only match", artists := ["a"] }

/-- Witness for C4 (amended), matching the spec scenario: the history of user
`u` contains `x`, the pool has only `x`, augmentation is empty — the filter
still returns a non-empty list (namely `[x]`). -/
theorem claim_C4_witness :
    (0 : Int) < 1 ∧ (∃ t ∈ [tdX], t.id ≠ "") ∧
      _apply_history_filter envEmpty [("u", ["x"])] [tdX] [] [] "u" 1 ≠ [] :=
  ⟨by decide, ⟨tdX, by simp, by decide⟩,
    claim_C4_history_soft envEmpty [("u", ["x"])] [tdX] [] [] "u" 1 (by decide)
      ⟨tdX, by simp, by decide⟩⟩

/-! ## Claims C2 and C8: normalization invariants and sampling -/

/-- The string keys of a declared-ranges dict (non-string keys are skipped). -/
def declKeys (d : Option (List (OKey × PyVal))) : List String :=
  (d.getD []).filterMap Prod.fst

/-- Key-uniqueness of an association list, the defining property of a dict. -/
def KeysNodup {β : Type} (m : List (String × β)) : Prop := (m.map Prod.fst).Nodup

theorem dFind_append {β : Type} (k : String) (m m' : List (String × β)) :
    dFind k (m ++ m') = match dFind k m with
      | some v => some v
      | Option.none => dFind k m' := by
  induction m with
  | nil => simp [dFind]
  | cons hd tl ih =>
      by_cases h : hd.1 = k
      · simp [dFind, h]
      · simp [dFind, h, ih]

theorem dFind_eq_none_iff {β : Type} (k : String) (m : List (String × β)) :
    dFind k m = Option.none ↔ k ∉ m.map Prod.fst := by
  induction m with
  | nil => simp [dFind]
  | cons hd tl ih =>
      unfold dFind
      by_cases h : hd.1 = k
      · subst h
        simp
      · rw [if_neg h]
        simp only [List.map_cons, List.mem_cons]
        rw [ih]
        constructor
        · intro hnone hmem
          rcases hmem with he | hm
          · exact h he.symm
          · exact hnone hm
        · intro hnm hm
          exact hnm (Or.inr hm)

theorem dFind_some_mem {β : Type} (k : String) (v : β) :
    ∀ m : List (String × β), dFind k m = some v → (k, v) ∈ m := by
  intro m
  induction m with
  | nil => intro h; exact Option.noConfusion h
  | cons hd tl ih =>
      intro h
      unfold dFind at h
      by_cases hh : hd.1 = k
      · rw [if_pos hh] at h
        have heq : hd = (k, v) := by
          obtain ⟨a, b⟩ := hd
          simp only at hh h
          subst hh
          rw [Option.some.injEq] at h
          rw [h]
        rw [heq]
        exact List.mem_cons_self _ _
      · rw [if_neg hh] at h
        exact List.mem_cons_of_mem _ (ih h)

theorem mem_dFind_of_nodup {β : Type} :
    ∀ (m : List (String × β)) (p : String × β), KeysNodup m → p ∈ m → dFind p.1 m = some p.2 := by
  intro m
  induction m with
  | nil => intro p _ hp; exact absurd hp (List.not_mem_nil p)
  | cons hd tl ih =>
      intro p hk hp
      rcases List.mem_cons.mp hp with rfl | hp
      · simp [dFind]
      · unfold dFind
        have hk1 : hd.1 ∉ tl.map Prod.fst := (List.nodup_cons.mp hk).1
        have hne : ¬ hd.1 = p.1 := by
          intro he
          exact hk1 (he ▸ List.mem_map_of_mem Prod.fst hp)
        rw [if_neg hne]
        exact ih p (List.nodup_cons.mp hk).2 hp

theorem mem_keys_dSet {β : Type} (k a : String) (v : β) :
    ∀ m : List (String × β), a ∈ (dSet m k v).map Prod.fst ↔ a = k ∨ a ∈ m.map Prod.fst := by
  intro m
  induction m with
  | nil => simp [dSet]
  | cons hd tl ih =>
      by_cases h : hd.1 = k
      · subst h
        simp [dSet]
      · simp only [dSet, if_neg h, List.map_cons, List.mem_cons, ih]
        tauto

theorem KeysNodup_dSet {β : Type} (k : String) (v : β) :
    ∀ m : List (String × β), KeysNodup m → KeysNodup (dSet m k v) := by
  intro m
  induction m with
  | nil => intro _; simp [dSet, KeysNodup]
  | cons hd tl ih =>
      intro h
      unfold KeysNodup at h
      rw [List.map_cons] at h
      obtain ⟨h1, h2⟩ := List.nodup_cons.mp h
      by_cases hh : hd.1 = k
      · subst hh
        unfold KeysNodup
        simp only [dSet, if_pos rfl, List.map_cons]
        exact List.nodup_cons.mpr ⟨h1, h2⟩
      · unfold KeysNodup
        simp only [dSet, if_neg hh, List.map_cons]
        refine List.nodup_cons.mpr ⟨?_, ih h2⟩
        intro hmem
        rcases (mem_keys_dSet k hd.1 v tl).mp hmem with he | hmem
        · exact hh he
        · exact h1 hmem

theorem KeysNodup_append_fresh {β : Type} (m : List (String × β)) (k : String) (v : β)
    (h : KeysNodup m) (hk : dFind k m = Option.none) : KeysNodup (m ++ [(k, v)]) := by
  unfold KeysNodup
  rw [List.map_append]
  refine List.Nodup.append h (by simp) ?_
  intro a ha hb
  simp only [List.map_cons, List.map_nil, List.mem_singleton] at hb
  subst hb
  exact (dFind_eq_none_iff a m).mp hk ha

/-- The center/range coherence invariant of the normalizer: every range entry
has its target stored as the matching center. -/
def NormInv (st : List (String × ℚ) × List (String × FRange)) : Prop :=
  ∀ n fr, dFind n st.2 = some fr → dFind n st.1 = some fr.target

theorem declFold_inv :
    ∀ (ds : List (OKey × PyVal)) (st : List (String × ℚ) × List (String × FRange)),
      NormInv st → KeysNodup st.1 →
      (ds.filterMap Prod.fst).Nodup →
      (∀ n ∈ ds.filterMap Prod.fst, dFind n st.1 = Option.none) →
      NormInv (ds.foldl normDeclStep st) ∧ KeysNodup (ds.foldl normDeclStep st).1 := by
  intro ds
  induction ds with
  | nil => intro st h1 h2 _ _; exact ⟨h1, h2⟩
  | cons kv rest ih =>
      intro st hInv hKN hNd hFresh
      simp only [List.foldl_cons]
      cases hk : kv.1 with
      | none =>
          have hskip : normDeclStep st kv = st := by unfold normDeclStep; rw [hk]
          rw [hskip]
          refine ih st hInv hKN ?_ ?_
          · simpa [List.filterMap_cons, hk] using hNd
          · intro n hn
            exact hFresh n (by simpa [List.filterMap_cons, hk] using hn)
      | some name =>
          have hNd' : (List.filterMap Prod.fst rest).Nodup := by
            have := hNd
            simp only [List.filterMap_cons, hk] at this
            exact (List.nodup_cons.mp this).2
          have hnm : name ∉ List.filterMap Prod.fst rest := by
            have := hNd
            simp only [List.filterMap_cons, hk] at this
            exact (List.nodup_cons.mp this).1
          have hfn : dFind name st.1 = Option.none :=
            hFresh name (by simp [List.filterMap_cons, hk])
          cases hc : _coerce_range kv.2 with
          | none =>
              have hskip : normDeclStep st kv = st := by unfold normDeclStep; rw [hk, hc]
              rw [hskip]
              refine ih st hInv hKN hNd' ?_
              intro n hn
              exact hFresh n (by simp [List.filterMap_cons, hk, hn])
          | some c =>
              have hstep : normDeclStep st kv = (dSetdefault st.1 name c.target, dSet st.2 name c) := by
                unfold normDeclStep
                rw [hk, hc]
              rw [hstep]
              have hsd : dSetdefault st.1 name c.target = st.1 ++ [(name, c.target)] := by
                unfold dSetdefault
                rw [hfn]
              rw [hsd]
              refine ih _ ?_ ?_ hNd' ?_
              · intro n fr hfr
                by_cases hn : n = name
                · subst hn
                  rw [dFind_dSet_self] at hfr
                  cases hfr
                  rw [dFind_append, hfn]
                  simp [dFind]
                · rw [dFind_dSet_ne _ _ _ _ hn] at hfr
                  rw [dFind_append, hInv n fr hfr]
              · exact KeysNodup_append_fresh st.1 name c.target hKN hfn
              · intro n hn
                have hne : n ≠ name := fun he => hnm (he ▸ hn)
                have hne2 : ¬ name = n := fun hh => hne hh.symm
                rw [dFind_append, hFresh n (by simp [List.filterMap_cons, hk, hn])]
                simp [dFind, hne2]

theorem rawFold_inv :
    ∀ (rs : List (OKey × PyVal)) (st : List (String × ℚ) × List (String × FRange)),
      NormInv st → KeysNodup st.1 →
      NormInv (rs.foldl normRawStep st) ∧ KeysNodup (rs.foldl normRawStep st).1 := by
  intro rs
  induction rs with
  | nil => intro st h1 h2; exact ⟨h1, h2⟩
  | cons kv rest ih =>
      intro st hInv hKN
      simp only [List.foldl_cons]
      cases hk : kv.1 with
      | none =>
          have hskip : normRawStep st kv = st := by unfold normRawStep; rw [hk]
          rw [hskip]
          exact ih st hInv hKN
      | some name =>
          have hgoal : NormInv (normRawStep st kv) ∧ KeysNodup (normRawStep st kv).1 := by
            unfold normRawStep
            rw [hk]
            have hset : ∀ (c : FRange),
                NormInv (dSet st.1 name c.target, dSet st.2 name c) ∧
                  KeysNodup (dSet st.1 name c.target) := by
              intro c
              refine ⟨?_, KeysNodup_dSet name c.target st.1 hKN⟩
              intro n fr hfr
              by_cases hn : n = name
              · subst hn
                rw [dFind_dSet_self] at hfr
                cases hfr
                rw [dFind_dSet_self]
              · rw [dFind_dSet_ne _ _ _ _ hn] at hfr
                rw [dFind_dSet_ne _ _ _ _ hn]
                exact hInv n fr hfr
            cases hcz : (match kv.2 with
                | PyVal.dict _ => _coerce_range kv.2
                | PyVal.list _ => _coerce_range kv.2
                | _ => Option.none) with
            | some c => simpa [hcz] using hset c
            | none =>
                simp only [hcz]
                cases hp : _parse_num kv.2 with
                | none => exact ⟨hInv, hKN⟩
                | some num =>
                    cases he : dFind name st.2 with
                    | none => exact hset ⟨num, num, num⟩
                    | some entry => exact hset ⟨min entry.min num, max entry.max num, num⟩
          exact ih _ hgoal.1 hgoal.2

theorem reconFold_props (centers2 : List (String × ℚ)) :
    ∀ (cs : List (String × ℚ)) (r : List (String × FRange)),
      (∀ p ∈ cs, dFind p.1 centers2 = some p.2) →
      (∀ n fr, dFind n r = some fr → dFind n centers2 = some fr.target) →
      (∀ n fr, dFind n r = some fr →
        dFind n cs = some fr.target ∨ (fr.min ≤ fr.target ∧ fr.target ≤ fr.max)) →
      (∀ n fr, dFind n (cs.foldl normReconStep r) = some fr →
        dFind n centers2 = some fr.target ∧ (fr.min ≤ fr.target ∧ fr.target ≤ fr.max)) := by
  intro cs
  induction cs with
  | nil =>
      intro r _ hP hQ n fr hfr
      refine ⟨hP n fr hfr, ?_⟩
      rcases hQ n fr hfr with h | h
      · exact absurd h (by simp [dFind])
      · exact h
  | cons p rest ih =>
      intro r hcs hP hQ
      simp only [List.foldl_cons]
      obtain ⟨pn, pv⟩ := p
      have hchead : dFind pn centers2 = some pv := hcs (pn, pv) (List.mem_cons_self _ _)
      cases hlook : dFind pn r with
      | none =>
          have hstep : normReconStep r (pn, pv) = r ++ [(pn, ⟨pv, pv, pv⟩)] := by
            simp [normReconStep, hlook]
          rw [hstep]
          refine ih _ (fun q hq => hcs q (List.mem_cons_of_mem _ hq)) ?_ ?_
          · intro n fr hfr
            rw [dFind_append] at hfr
            cases hfr2 : dFind n r with
            | some fr' =>
                rw [hfr2] at hfr
                cases hfr
                exact hP n fr hfr2
            | none =>
                rw [hfr2] at hfr
                simp only [dFind] at hfr
                by_cases hn : pn = n
                · rw [if_pos hn] at hfr
                  cases hfr
                  exact hn ▸ hchead
                · rw [if_neg hn] at hfr
                  exact Option.noConfusion hfr
          · intro n fr hfr
            rw [dFind_append] at hfr
            cases hfr2 : dFind n r with
            | some fr' =>
                rw [hfr2] at hfr
                cases hfr
                rcases hQ n fr hfr2 with h | h
                · left
                  have hne : ¬ pn = n := by
                    intro he
                    rw [← he] at hfr2
                    exact Option.noConfusion (hlook ▸ hfr2)
                  simpa [dFind, hne] using h
                · exact Or.inr h
            | none =>
                rw [hfr2] at hfr
                simp only [dFind] at hfr
                by_cases hn : pn = n
                · rw [if_pos hn] at hfr
                  cases hfr
                  right
                  exact ⟨le_refl _, le_refl _⟩
                · rw [if_neg hn] at hfr
                  exact Option.noConfusion hfr
      | some e =>
          have hstep : normReconStep r (pn, pv)
              = dSet r pn ⟨min e.min pv, max e.max pv, e.target⟩ := by
            simp [normReconStep, hlook]
          rw [hstep]
          have hev : e.target = pv ∨ (e.min ≤ e.target ∧ e.target ≤ e.max) := by
            rcases hQ pn e hlook with h | h
            · left
              simp [dFind] at h
              exact h.symm
            · exact Or.inr h
          refine ih _ (fun q hq => hcs q (List.mem_cons_of_mem _ hq)) ?_ ?_
          · intro n fr hfr
            by_cases hn : n = pn
            · subst hn
              rw [dFind_dSet_self] at hfr
              cases hfr
              exact hP n e hlook
            · rw [dFind_dSet_ne _ _ _ _ hn] at hfr
              exact hP n fr hfr
          · intro n fr hfr
            by_cases hn : n = pn
            · subst hn
              rw [dFind_dSet_self] at hfr
              cases hfr
              right
              rcases hev with he | he
              · constructor
                · simp [he, min_le_right]
                · simp [he, le_max_right]
              · constructor
                · exact le_trans (min_le_left _ _) he.1
                · exact le_trans he.2 (le_max_left _ _)
            · rw [dFind_dSet_ne _ _ _ _ hn] at hfr
              rcases hQ n fr hfr with h | h
              · left
                have hne : ¬ pn = n := fun he => hn he.symm
                simpa [dFind, hne] using h
              · exact Or.inr h

theorem centersFold_preserve :
    ∀ (rgs : List (String × FRange)) (cs : List (String × ℚ)) (n : String) (v : ℚ),
      dFind n cs = some v →
      dFind n (rgs.foldl (fun cs (kv : String × FRange) =>
        match dFind kv.1 cs with
        | some _ => cs
        | Option.none => cs ++ [(kv.1, kv.2.target)]) cs) = some v := by
  intro rgs
  induction rgs with
  | nil => intro cs n v h; exact h
  | cons kv rest ih =>
      intro cs n v h
      simp only [List.foldl_cons]
      cases hlook : dFind kv.1 cs with
      | some w => simpa [hlook] using ih cs n v h
      | none =>
          simp only [hlook]
          refine ih _ n v ?_
          rw [dFind_append, h]

theorem centersFold_KeysNodup :
    ∀ (rgs : List (String × FRange)) (cs : List (String × ℚ)), KeysNodup cs →
      KeysNodup (rgs.foldl (fun cs (kv : String × FRange) =>
        match dFind kv.1 cs with
        | some _ => cs
        | Option.none => cs ++ [(kv.1, kv.2.target)]) cs) := by
  intro rgs
  induction rgs with
  | nil => intro cs h; exact h
  | cons kv rest ih =>
      intro cs h
      rw [List.foldl_cons]
      cases hl : dFind kv.1 cs with
      | some w => simp only [hl]; exact ih cs h
      | none =>
          simp only [hl]
          exact ih _ (KeysNodup_append_fresh cs kv.1 kv.2.target h hl)

/-- Combined normalizer invariant: the centers dict of
`_normalize_target_features` has unique keys, every range entry is bounded
(min ≤ target ≤ max), and its target is stored as the matching center. -/
theorem normalize_invariants (raw declared : Option (List (OKey × PyVal)))
    (hNd : (declKeys declared).Nodup) :
    KeysNodup (_normalize_target_features raw declared).1 ∧
    ∀ n fr, dFind n (_normalize_target_features raw declared).2 = some fr →
      (fr.min ≤ fr.target ∧ fr.target ≤ fr.max) ∧
      dFind n (_normalize_target_features raw declared).1 = some fr.target := by
  unfold _normalize_target_features
  set st0 : List (String × ℚ) × List (String × FRange) := ([], []) with hst0
  set st1 := (match declared with
    | some d => d.foldl normDeclStep st0
    | Option.none => st0) with hst1
  set st2 := (match raw with
    | some r => r.foldl normRawStep st1
    | Option.none => st1) with hst2
  have h1 : NormInv st1 ∧ KeysNodup st1.1 := by
    rw [hst1]
    cases declared with
    | none => exact ⟨fun n fr h => Option.noConfusion h, by simp [KeysNodup, hst0]⟩
    | some d =>
        refine declFold_inv d st0 (fun n fr h => Option.noConfusion h)
          (by simp [KeysNodup, hst0]) ?_ ?_
        · simpa [declKeys] using hNd
        · intro m _
          rfl
  have h2 : NormInv st2 ∧ KeysNodup st2.1 := by
    rw [hst2]
    cases raw with
    | none => exact h1
    | some r => exact rawFold_inv r st1 h1.1 h1.2
  constructor
  · exact centersFold_KeysNodup (List.foldl normReconStep st2.2 st2.1) st2.1 h2.2
  · intro n fr hfr
    have h3 := reconFold_props st2.1 st2.1 st2.2
      (fun p hp => mem_dFind_of_nodup st2.1 p h2.2 hp)
      (fun n fr h => h2.1 n fr h)
      (fun n fr h => Or.inl (h2.1 n fr h))
      n fr hfr
    exact ⟨h3.2, centersFold_preserve (List.foldl normReconStep st2.2 st2.1) st2.1 n fr.target h3.1⟩

/-- Claim C2: after normalization every range entry satisfies
min ≤ target ≤ max, for arbitrary raw features and declared ranges (modelled
dicts; the declared dict carries the key-uniqueness every Python dict has). -/
theorem claim_C2_normalized_bounds (raw declared : Option (List (OKey × PyVal)))
    (hNd : (declKeys declared).Nodup) (n : String) (fr : FRange)
    (hfr : dFind n (_normalize_target_features raw declared).2 = some fr) :
    fr.min ≤ fr.target ∧ fr.target ≤ fr.max :=
  ((normalize_invariants raw declared hNd).2 n fr hfr).1

/-- Witness for C2: a range declared as min 0, max 1 with a target of 5
(outside the declared bounds, as the claim allows) normalizes to
min 0 ≤ target 5 ≤ max 5. -/
theorem claim_C2_witness :
    dFind "x" (_normalize_target_features
        (some [(some "x", PyVal.dict [("min", PyVal.num 0), ("max", PyVal.num 1),
          ("target", PyVal.num 5)])]) Option.none).2
      = some ⟨0, 5, 5⟩ ∧
    ((⟨0, 5, 5⟩ : FRange).min ≤ (⟨0, 5, 5⟩ : FRange).target ∧
      (⟨0, 5, 5⟩ : FRange).target ≤ (⟨0, 5, 5⟩ : FRange).max) :=
  ⟨by with_unfolding_all rfl,
    claim_C2_normalized_bounds
      (some [(some "x", PyVal.dict [("min", PyVal.num 0), ("max", PyVal.num 1),
        ("target", PyVal.num 5)])])
      Option.none (by simp [declKeys]) "x" ⟨0, 5, 5⟩
      (by with_unfolding_all rfl)⟩

theorem sampleStep1_preserve (rng : ℕ → ℚ) (ranges : List (String × FRange)) :
    ∀ (centers : List (String × ℚ)) (n : String), n ∉ centers.map Prod.fst →
      ∀ si, dFind n (centers.foldl (sampleStep1 rng ranges) si).1 = dFind n si.1 := by
  intro centers
  induction centers with
  | nil => intro n _ si; rfl
  | cons hd tl ih =>
      intro n hn si
      simp only [List.map_cons, List.mem_cons, not_or] at hn
      obtain ⟨hne, hn2⟩ := hn
      rw [List.foldl_cons, ih n hn2]
      simp only [sampleStep1]
      split <;> split
      all_goals exact dFind_dSet_ne si.1 hd.1 n _ hne

theorem sampleStep1_find_narrow (rng : ℕ → ℚ) (ranges : List (String × FRange))
    (n : String) (c : ℚ) (fr : FRange) (hfr : dFind n ranges = some fr)
    (hns : ¬ fr.max < fr.min) (hw : fr.max - fr.min ≤ 1e-6) :
    ∀ (centers : List (String × ℚ)), KeysNodup centers → (n, c) ∈ centers →
      ∀ si, dFind n (centers.foldl (sampleStep1 rng ranges) si).1 = some c := by
  intro centers
  induction centers with
  | nil => intro _ hm; exact absurd hm (List.not_mem_nil _)
  | cons hd tl ih =>
      intro hk hm si
      rw [List.foldl_cons]
      rcases List.mem_cons.mp hm with heq | hm2
      · subst heq
        have hk2 : (n :: tl.map Prod.fst).Nodup := by
          unfold KeysNodup at hk
          rwa [List.map_cons] at hk
        rw [sampleStep1_preserve rng ranges tl n (List.nodup_cons.mp hk2).1]
        simp only [sampleStep1, hfr]
        simp only [if_neg hns]
        rw [if_pos hw]
        exact dFind_dSet_self si.1 n c
      · have hk2 : (hd.1 :: tl.map Prod.fst).Nodup := by
          unfold KeysNodup at hk
          rwa [List.map_cons] at hk
        have hne : hd.1 ≠ n := by
          intro he
          apply (List.nodup_cons.mp hk2).1
          rw [he]
          exact List.mem_map_of_mem Prod.fst hm2
        exact ih (List.nodup_cons.mp hk2).2 hm2 (sampleStep1 rng ranges si hd)

theorem sampleStep1_find_wide (rng : ℕ → ℚ) (ranges : List (String × FRange))
    (n : String) (c : ℚ) (fr : FRange) (hfr : dFind n ranges = some fr)
    (hns : ¬ fr.max < fr.min) (hw : ¬ fr.max - fr.min ≤ 1e-6) :
    ∀ (centers : List (String × ℚ)), KeysNodup centers → (n, c) ∈ centers →
      ∀ si, ∃ i, dFind n (centers.foldl (sampleStep1 rng ranges) si).1
        = some (uniformDraw fr.min fr.max (rng i)) := by
  intro centers
  induction centers with
  | nil => intro _ hm; exact absurd hm (List.not_mem_nil _)
  | cons hd tl ih =>
      intro hk hm si
      rw [List.foldl_cons]
      rcases List.mem_cons.mp hm with heq | hm2
      · subst heq
        have hk2 : (n :: tl.map Prod.fst).Nodup := by
          unfold KeysNodup at hk
          rwa [List.map_cons] at hk
        refine ⟨si.2, ?_⟩
        rw [sampleStep1_preserve rng ranges tl n (List.nodup_cons.mp hk2).1]
        simp only [sampleStep1, hfr]
        simp only [if_neg hns]
        rw [if_neg hw]
        exact dFind_dSet_self si.1 n _
      · have hk2 : (hd.1 :: tl.map Prod.fst).Nodup := by
          unfold KeysNodup at hk
          rwa [List.map_cons] at hk
        exact ih (List.nodup_cons.mp hk2).2 hm2 (sampleStep1 rng ranges si hd)

theorem sampleStep2_preserve (rng : ℕ → ℚ) :
    ∀ (rgs : List (String × FRange)) (n : String) (v : ℚ) si,
      dFind n si.1 = some v → dFind n (rgs.foldl (sampleStep2 rng) si).1 = some v := by
  intro rgs
  induction rgs with
  | nil => intro n v si h; exact h
  | cons hd tl ih =>
      intro n v si h
      rw [List.foldl_cons]
      refine ih n v _ ?_
      cases hl : dFind hd.1 si.1 with
      | some w => simpa [sampleStep2, hl] using h
      | none =>
          have hne : n ≠ hd.1 := by
            intro he
            rw [← he] at hl
            rw [h] at hl
            exact Option.noConfusion hl
          simp only [sampleStep2, hl]
          split <;> split
          all_goals
            rw [dFind_dSet_ne si.1 hd.1 n _ hne]
            exact h

/-- Claim C8: for a centers/ranges pair produced by the normalizer, a feature
whose range width is within the 1e-6 epsilon always samples to its
center/target, for every state of the random source; a feature whose width
exceeds the epsilon is drawn from the random source, uniformly within
[min, max]. -/
theorem claim_C8_zero_width_sampling (raw declared : Option (List (OKey × PyVal)))
    (hNd : (declKeys declared).Nodup) (n : String) (fr : FRange)
    (hfr : dFind n (_normalize_target_features raw declared).2 = some fr) :
    (fr.max - fr.min ≤ 1e-6 →
      ∀ rng : ℕ → ℚ,
        dFind n (_sample_target_features rng (_normalize_target_features raw declared).1
          (_normalize_target_features raw declared).2) = some fr.target) ∧
    (¬ fr.max - fr.min ≤ 1e-6 →
      ∀ rng : ℕ → ℚ, ∃ i,
        dFind n (_sample_target_features rng (_normalize_target_features raw declared).1
          (_normalize_target_features raw declared).2)
          = some (uniformDraw fr.min fr.max (rng i))) := by
  have hinv := normalize_invariants raw declared hNd
  obtain ⟨⟨hmin, hmax⟩, hcen⟩ := hinv.2 n fr hfr
  have hns : ¬ fr.max < fr.min := not_lt.mpr (le_trans hmin hmax)
  have hmem : (n, fr.target) ∈ (_normalize_target_features raw declared).1 :=
    dFind_some_mem n fr.target _ hcen
  have hre : (_normalize_target_features raw declared).2.isEmpty = false := by
    cases hempty : (_normalize_target_features raw declared).2 with
    | nil => rw [hempty] at hfr; exact Option.noConfusion hfr
    | cons a b => rfl
  have hguard : ((_normalize_target_features raw declared).1.isEmpty &&
      (_normalize_target_features raw declared).2.isEmpty) = false := by
    rw [hre, Bool.and_false]
  have hsample : ∀ rng : ℕ → ℚ,
      _sample_target_features rng (_normalize_target_features raw declared).1
        (_normalize_target_features raw declared).2
      = ((_normalize_target_features raw declared).2.foldl (sampleStep2 rng)
          ((_normalize_target_features raw declared).1.foldl
            (sampleStep1 rng (_normalize_target_features raw declared).2) ([], 0))).1 := by
    intro rng
    unfold _sample_target_features
    rw [hguard]
    rfl
  constructor
  · intro hw rng
    rw [hsample rng]
    exact sampleStep2_preserve rng _ n fr.target _
      (sampleStep1_find_narrow rng _ n fr.target fr hfr hns hw _ hinv.1 hmem ([], 0))
  · intro hw rng
    rw [hsample rng]
    obtain ⟨i, hi⟩ := sampleStep1_find_wide rng _ n fr.target fr hfr hns hw _ hinv.1 hmem ([], 0)
    exact ⟨i, sampleStep2_preserve rng _ n _ _ hi⟩

/-- Witness for C8: a single scalar feature `energy = 1/2` gives a zero-width
range, and sampling returns exactly 1/2 whatever the random stream is. -/
theorem claim_C8_witness :
    (declKeys (Option.none : Option (List (OKey × PyVal)))).Nodup ∧
    dFind "energy" (_normalize_target_features
        (some [(some "energy", PyVal.num (1/2))]) Option.none).2
      = some ⟨1/2, 1/2, 1/2⟩ ∧
    ∀ rng : ℕ → ℚ,
      dFind "energy" (_sample_target_features rng
        (_normalize_target_features (some [(some "energy", PyVal.num (1/2))]) Option.none).1
        (_normalize_target_features (some [(some "energy", PyVal.num (1/2))]) Option.none).2)
        = some (1/2) := by
  refine ⟨by simp [declKeys], by with_unfolding_all rfl, ?_⟩
  intro rng
  exact (claim_C8_zero_width_sampling (some [(some "energy", PyVal.num (1/2))]) Option.none
    (by simp [declKeys]) "energy" ⟨1/2, 1/2, 1/2⟩ (by with_unfolding_all rfl)).1
    (by norm_num) rng

/-! ## Claim C3: deduplication of the final track list -/

theorem histPhase1_good (histSet : List String) (limit : Int) :
    ∀ (rest : List Td) (seen : List String) (filt left : List Td),
      (∀ t ∈ filt, t.id ≠ "") →
      ((filt.map (fun t => t.id)).Nodup) →
      (∀ x ∈ filt.map (fun t => t.id), x ∈ seen) →
      (∀ t ∈ (histPhase1 histSet limit rest seen filt left).1, t.id ≠ "") ∧
      ((histPhase1 histSet limit rest seen filt left).1.map (fun t => t.id)).Nodup ∧
      (∀ x ∈ (histPhase1 histSet limit rest seen filt left).1.map (fun t => t.id),
        x ∈ (histPhase1 histSet limit rest seen filt left).2.2) := by
  intro rest
  induction rest with
  | nil => intro seen filt left h1 h2 h3; exact ⟨h1, h2, h3⟩
  | cons t rest ih =>
      intro seen filt left h1 h2 h3
      simp only [histPhase1]
      split
      · exact ih seen filt left h1 h2 h3
      · rename_i hg
        have hg2 : t.id ≠ "" ∧ t.id ∉ seen := by simpa [not_or] using hg
        split
        · refine ih (seen ++ [t.id]) filt (left ++ [t]) h1 h2 ?_
          intro x hx
          exact List.mem_append_left _ (h3 x hx)
        · split
          · refine ⟨?_, ?_, ?_⟩
            · intro u hu
              rcases List.mem_append.mp hu with hu | hu
              · exact h1 u hu
              · rcases List.mem_singleton.mp hu with rfl
                exact hg2.1
            · rw [List.map_append]
              refine List.Nodup.append h2 (by simp) ?_
              intro a ha hb
              simp only [List.map_cons, List.map_nil, List.mem_singleton] at hb
              subst hb
              exact hg2.2 (h3 t.id ha)
            · intro x hx
              rw [List.map_append] at hx
              rcases List.mem_append.mp hx with hx | hx
              · exact List.mem_append_left _ (h3 x hx)
              · simp only [List.map_cons, List.map_nil, List.mem_singleton] at hx
                subst hx
                exact List.mem_append_right _ (by simp)
          · refine ih (seen ++ [t.id]) (filt ++ [t]) left ?_ ?_ ?_
            · intro u hu
              rcases List.mem_append.mp hu with hu | hu
              · exact h1 u hu
              · rcases List.mem_singleton.mp hu with rfl
                exact hg2.1
            · rw [List.map_append]
              refine List.Nodup.append h2 (by simp) ?_
              intro a ha hb
              simp only [List.map_cons, List.map_nil, List.mem_singleton] at hb
              subst hb
              exact hg2.2 (h3 t.id ha)
            · intro x hx
              rw [List.map_append] at hx
              rcases List.mem_append.mp hx with hx | hx
              · exact List.mem_append_left _ (h3 x hx)
              · simp only [List.map_cons, List.map_nil, List.mem_singleton] at hx
                subst hx
                exact List.mem_append_right _ (by simp)

theorem histPhase2_good (histSet : List String) (limit : Int) :
    ∀ (supp : List Td) (seen : List String) (filt : List Td),
      (∀ t ∈ filt, t.id ≠ "") →
      ((filt.map (fun t => t.id)).Nodup) →
      (∀ x ∈ filt.map (fun t => t.id), x ∈ seen) →
      (∀ t ∈ (histPhase2 histSet limit supp seen filt).1, t.id ≠ "") ∧
      ((histPhase2 histSet limit supp seen filt).1.map (fun t => t.id)).Nodup := by
  intro supp
  induction supp with
  | nil => intro seen filt h1 h2 _; exact ⟨h1, h2⟩
  | cons t rest ih =>
      intro seen filt h1 h2 h3
      simp only [histPhase2]
      split
      · exact ih seen filt h1 h2 h3
      · rename_i hg
        have hg2 : t.id ≠ "" ∧ t.id ∉ seen := by
          have h4 := (by simpa [not_or] using hg :
            (¬ t.id = "" ∧ t.id ∉ seen) ∧ t.id ∉ histSet)
          exact ⟨h4.1.1, h4.1.2⟩
        split
        · constructor
          · intro u hu
            rcases List.mem_append.mp hu with hu | hu
            · exact h1 u hu
            · rcases List.mem_singleton.mp hu with rfl
              exact hg2.1
          · rw [List.map_append]
            refine List.Nodup.append h2 (by simp) ?_
            intro a ha hb
            simp only [List.map_cons, List.map_nil, List.mem_singleton] at hb
            subst hb
            exact hg2.2 (h3 t.id ha)
        · refine ih (seen ++ [t.id]) (filt ++ [t]) ?_ ?_ ?_
          · intro u hu
            rcases List.mem_append.mp hu with hu | hu
            · exact h1 u hu
            · rcases List.mem_singleton.mp hu with rfl
              exact hg2.1
          · rw [List.map_append]
            refine List.Nodup.append h2 (by simp) ?_
            intro a ha hb
            simp only [List.map_cons, List.map_nil, List.mem_singleton] at hb
            subst hb
            exact hg2.2 (h3 t.id ha)
          · intro x hx
            rw [List.map_append] at hx
            rcases List.mem_append.mp hx with hx | hx
            · exact List.mem_append_left _ (h3 x hx)
            · simp only [List.map_cons, List.map_nil, List.mem_singleton] at hx
              subst hx
              exact List.mem_append_right _ (by simp)

theorem histPhase3_good (limit : Int) :
    ∀ (left filt : List Td) (ex : List String),
      (∀ t ∈ filt, t.id ≠ "") →
      ((filt.map (fun t => t.id)).Nodup) →
      (∀ x ∈ filt.map (fun t => t.id), x ∈ ex) →
      (∀ t ∈ histPhase3 limit left filt ex, t.id ≠ "") ∧
      ((histPhase3 limit left filt ex).map (fun t => t.id)).Nodup := by
  intro left
  induction left with
  | nil => intro filt ex h1 h2 _; exact ⟨h1, h2⟩
  | cons t rest ih =>
      intro filt ex h1 h2 h3
      simp only [histPhase3]
      split
      · exact ih filt ex h1 h2 h3
      · rename_i hg
        have hg2 : t.id ≠ "" ∧ t.id ∉ ex := by simpa [not_or] using hg
        split
        · constructor
          · intro u hu
            rcases List.mem_append.mp hu with hu | hu
            · exact h1 u hu
            · rcases List.mem_singleton.mp hu with rfl
              exact hg2.1
          · rw [List.map_append]
            refine List.Nodup.append h2 (by simp) ?_
            intro a ha hb
            simp only [List.map_cons, List.map_nil, List.mem_singleton] at hb
            subst hb
            exact hg2.2 (h3 t.id ha)
        · refine ih (filt ++ [t]) (ex ++ [t.id]) ?_ ?_ ?_
          · intro u hu
            rcases List.mem_append.mp hu with hu | hu
            · exact h1 u hu
            · rcases List.mem_singleton.mp hu with rfl
              exact hg2.1
          · rw [List.map_append]
            refine List.Nodup.append h2 (by simp) ?_
            intro a ha hb
            simp only [List.map_cons, List.map_nil, List.mem_singleton] at hb
            subst hb
            exact hg2.2 (h3 t.id ha)
          · intro x hx
            rw [List.map_append] at hx
            rcases List.mem_append.mp hx with hx | hx
            · exact List.mem_append_left _ (h3 x hx)
            · simp only [List.map_cons, List.map_nil, List.mem_singleton] at hx
              subst hx
              exact List.mem_append_right _ (by simp)

theorem pyTake_sublist {α : Type} (n : Int) (l : List α) : (pyTake n l).Sublist l := by
  unfold pyTake
  split
  · exact List.take_sublist _ _
  · exact List.take_sublist _ _

/-- The history filter emits only candidates with truthy ids, and never two
with the same id. -/
theorem apply_history_filter_good (env : Env) (histMap : List (String × List String))
    (ranked basePool : List Td) (terms : List String) (userKey : String) (limit : Int) :
    (∀ t ∈ _apply_history_filter env histMap ranked basePool terms userKey limit, t.id ≠ "") ∧
    ((_apply_history_filter env histMap ranked basePool terms userKey limit).map
      (fun t => t.id)).Nodup := by
  by_cases hre : ranked.isEmpty = true
  · unfold _apply_history_filter
    rw [if_pos hre]
    exact ⟨fun t ht => absurd ht (List.not_mem_nil t), List.nodup_nil⟩
  · set history := ((dFind userKey histMap).getD []).filter (· ≠ "") with hh
    set p1 := histPhase1 history limit ranked [] [] [] with hp1
    set filt2 := (if (p1.1.length : Int) < limit ∧ terms ≠ [] then
        (histPhase2 history limit
          (_augment_from_search_terms env terms (basePool ++ ranked) env.market (max (limit * 2) 10))
          p1.2.2 p1.1).1
      else p1.1) with hf2
    set filt3 := (if (filt2.length : Int) < limit then
        histPhase3 limit p1.2.1 filt2 (filt2.map (·.id))
      else filt2) with hf3
    have hdef : _apply_history_filter env histMap ranked basePool terms userKey limit
        = pyTake limit filt3 := by
      unfold _apply_history_filter
      rw [if_neg hre]
    obtain ⟨g1, g2, g3⟩ := histPhase1_good history limit ranked [] [] []
      (fun t ht => absurd ht (List.not_mem_nil t)) (by simp) (by simp)
    have h2 : (∀ t ∈ filt2, t.id ≠ "") ∧ ((filt2.map (fun t => t.id)).Nodup) := by
      rw [hf2]
      by_cases hc : (p1.1.length : Int) < limit ∧ terms ≠ []
      · rw [if_pos hc]
        exact histPhase2_good history limit
          (_augment_from_search_terms env terms (basePool ++ ranked) env.market (max (limit * 2) 10))
          p1.2.2 p1.1 g1 g2 g3
      · rw [if_neg hc]
        exact ⟨g1, g2⟩
    have h3 : (∀ t ∈ filt3, t.id ≠ "") ∧ ((filt3.map (fun t => t.id)).Nodup) := by
      rw [hf3]
      by_cases hc : (filt2.length : Int) < limit
      · rw [if_pos hc]
        exact histPhase3_good limit p1.2.1 filt2 (filt2.map (·.id)) h2.1 h2.2 (fun x hx => hx)
      · rw [if_neg hc]
        exact h2
    rw [hdef]
    have hsub := pyTake_sublist limit filt3
    exact ⟨fun t ht => h3.1 t (hsub.subset ht),
      List.Nodup.sublist (List.Sublist.map _ hsub) h3.2⟩

theorem buildTrackStep_fold_ids (afm : List (String × List (String × ℚ))) :
    ∀ (pool : List Td) (acc : List TrackRec),
      ((pool.foldl (buildTrackStep afm) acc).map (fun r => r.id))
      = acc.map (fun r => r.id) ++ ((pool.filter (fun t => t.id ≠ "")).map (fun t => t.id)) := by
  intro pool
  induction pool with
  | nil => intro acc; simp
  | cons t rest ih =>
      intro acc
      rw [List.foldl_cons, ih]
      by_cases h : t.id = ""
      · simp [buildTrackStep, h, List.filter_cons]
      · simp [buildTrackStep, h, List.filter_cons]

/-- The ids of the built track records are the truthy ids of the pool, in
order. -/
theorem buildTracks_ids (afm : List (String × List (String × ℚ))) (pool : List Td) :
    (buildTracks afm pool).map (fun r => r.id)
      = (pool.filter (fun t => t.id ≠ "")).map (fun t => t.id) := by
  unfold buildTracks
  rw [buildTrackStep_fold_ids]
  simp

/-- Every output of the pipeline tail has id-distinct tracks, all with truthy
ids. -/
theorem pipelineFinish_ids_good (env : Env) (histMap : List (String × List String))
    (userKey : String) (searchTerms : List String)
    (responseTarget jitterHint applied : List (String × ℚ))
    (usedGenres inferredGenres seedArtistNames matched : List String)
    (limit : Int) (rawTracks7 : List Td) :
    ((pipelineFinish env histMap userKey searchTerms responseTarget jitterHint applied
        usedGenres inferredGenres seedArtistNames matched limit rawTracks7).tracks.map
      (fun r => r.id)).Nodup ∧
    (∀ x ∈ (pipelineFinish env histMap userKey searchTerms responseTarget jitterHint applied
        usedGenres inferredGenres seedArtistNames matched limit rawTracks7).tracks.map
      (fun r => r.id), x ≠ "") := by
  have htr : (pipelineFinish env histMap userKey searchTerms responseTarget jitterHint applied
        usedGenres inferredGenres seedArtistNames matched limit rawTracks7).tracks
      = buildTracks
          (if ¬ (((rawTracks7.filter (fun t => t.id ≠ "")).map (·.id)).isEmpty)
            then env.client.get_audio_features ((rawTracks7.filter (fun t => t.id ≠ "")).map (·.id))
            else [])
          (_apply_history_filter env histMap
            (_rank_tracks env rawTracks7
              (if ¬ (((rawTracks7.filter (fun t => t.id ≠ "")).map (·.id)).isEmpty)
                then env.client.get_audio_features
                  ((rawTracks7.filter (fun t => t.id ≠ "")).map (·.id))
                else [])
              responseTarget jitterHint
              (if ¬ rawTracks7.isEmpty
                then min (rawTracks7.length : Int)
                  (limit + (if (rawTracks7.length : Int) > limit then 5 else 0))
                else limit))
            rawTracks7 searchTerms userKey limit) := rfl
  rw [htr, buildTracks_ids]
  constructor
  · refine List.Nodup.sublist (List.Sublist.map _ (List.filter_sublist _)) ?_
    exact (apply_history_filter_good env histMap _ rawTracks7 searchTerms userKey limit).2
  · intro x hx
    obtain ⟨t, ht, rfl⟩ := List.mem_map.mp hx
    simpa using List.of_mem_filter ht

theorem except_map_eq_ok {ε α β : Type} (f : α → β) (x : Except ε α) (b : β)
    (h : Except.map f x = Except.ok b) : ∃ a, x = Except.ok a ∧ b = f a := by
  cases x with
  | error e => exact Except.noConfusion h
  | ok a =>
      refine ⟨a, rfl, ?_⟩
      have h2 : Except.ok (f a) = Except.ok b := h
      simpa using h2.symm

/-- Every successful pipeline run ends in the `pipelineFinish` tail. -/
theorem pipeline_ok_shape (env : Env) (st : SvcState) (args : RecArgs) (out : PipeOut)
    (h : recommendPipeline env st args = Except.ok out) :
    ∃ userKey searchTerms responseTarget jitterHint applied usedGenres inferredGenres
      seedArtistNames matched limit rawTracks7,
      out = pipelineFinish env st.hist userKey searchTerms responseTarget jitterHint applied
        usedGenres inferredGenres seedArtistNames matched limit rawTracks7 := by
  obtain ⟨atf, atfr, aprof, agen, aseed, alim, atok⟩ := args
  cases atf <;> cases aprof <;> cases atfr <;>
    simp only [recommendPipeline] at h <;>
    first
    | exact Except.noConfusion h
    | (obtain ⟨a, hx, hout⟩ := except_map_eq_ok _ _ _ h;
       exact ⟨_, _, _, _, _, _, _, _, _, _, _, hout⟩)

/-- Claim C3 (amended): the final returned track list never contains two
tracks with the same id — for every environment, state, argument vector and
successful run.  (The original claim also promised no duplicate normalized
name/lead-artist pair; the counterexample below refutes that clause: the
seed-artist top-tracks fallback deduplicates by id only.) -/
theorem select_ok_pipeline (env : Env) (st : SvcState) (args : RecArgs) (out : PipeOut)
    (h : (recommendSelect env st args).2 = Except.ok out) :
    recommendPipeline env st args = Except.ok out := by
  unfold recommendSelect at h
  cases hr : recommendPipeline env st args with
  | error e =>
      rw [hr] at h
      exact absurd h (by simp)
  | ok o =>
      rw [hr] at h
      exact h

theorem claim_C3_no_duplicate_ids (env : Env) (st : SvcState) (args : RecArgs) (out : PipeOut)
    (h : (recommendSelect env st args).2 = Except.ok out) :
    ((out.tracks.map (fun r => r.id)).Nodup) := by
  obtain ⟨uk, stm, rt, jh, ap, ug, ig, sa, ma, li, r7, hout⟩ :=
    pipeline_ok_shape env st args out (select_ok_pipeline env st args out h)
  rw [hout]
  exact (pipelineFinish_ids_good env st.hist uk stm rt jh ap ug ig sa ma li r7).1

/-- Witness for C3 (amended): the empty-catalog run succeeds and its (empty)
track list is id-distinct. -/
theorem claim_C3_witness :
    ∃ out, (recommendSelect envEmpty ⟨[]⟩ { target_features := tfEnergy }).2 = Except.ok out ∧
      ((out.tracks.map (fun r => r.id)).Nodup) := by
  obtain ⟨out, hout⟩ : ∃ out,
      (recommendSelect envEmpty ⟨[]⟩ { target_features := tfEnergy }).2 = Except.ok out :=
    ⟨_, by with_unfolding_all rfl⟩
  exact ⟨out, hout, claim_C3_no_duplicate_ids envEmpty ⟨[]⟩ { target_features := tfEnergy } out hout⟩

/-- Two distinct catalog entries that normalize to the same name/lead-artist
pair. -/
def t31 : Td := { id := "1", name := "Song", artists := ["A"], popularity := 50 }

/-- See `t31`. -/
def t32 : Td := { id := "2", name := "Song", artists := ["A"], popularity := 50 }

/-- A client whose seed-artist top-tracks fallback serves `t31` and `t32`. -/
def client3 : Client where
  normalize_genres := fun _ => []
  search_artists_by_genre := fun _ _ _ => .ok []
  resolve_artist_ids := fun _ _ => [("A", "aid")]
  get_recommendations := fun _ _ _ _ _ _ => ({}, [], [])
  search_tracks_by_label := fun _ _ => .ok []
  search_tracks_raw := fun _ _ _ => .ok []
  get_artist_top_tracks := fun _ _ _ => [t31, t32]
  get_audio_features := fun _ => []

/-- The environment around `client3`. -/
def env3 : Env := { client := client3 }

/-- A request for two tracks seeded on artist `A`. -/
def args3 : RecArgs :=
  { target_features := tfEnergy, seed_artists := some [some "A"], limit := some 2 }

/-- The concrete result of the `env3`/`args3` run. -/
def out3 : PipeOut where
  tracks := [
    { id := "1", name := "Song", artists := ["A"], external_url := "",
      album_image := Option.none, audio_features := Option.none },
    { id := "2", name := "Song", artists := ["A"], external_url := "",
      album_image := Option.none, audio_features := Option.none }]
  features := [("energy", 1/2)]
  seed_genres := []
  seed_artists := ["A"]
  inferred_genres := []

/-- Counterexample for the pair-deduplication clause of C3: a successful run
whose two returned tracks share the normalized name/lead-artist pair. -/
theorem claim_C3_counterexample :
    ∃ out, (recommendSelect env3 ⟨[]⟩ args3).2 = Except.ok out ∧
      ¬ ((out.tracks.map (fun r => _norm_pair r.name (r.artists.headD ""))).Nodup) := by
  refine ⟨out3, ?_, ?_⟩
  · with_unfolding_all rfl
  · with_unfolding_all decide

/-! ## Claim C5: the history bound and FIFO truncation -/

theorem pyTruncLast_length_le (l : List String) : (pyTruncLast 200 l).length ≤ 200 := by
  unfold pyTruncLast
  split
  · rename_i h
    rw [List.length_drop]
    omega
  · rename_i h
    omega

theorem pyTruncLast_suffix (old ids : List String) (h : ids.length ≤ 200) :
    ids <:+ pyTruncLast 200 (old ++ ids) := by
  unfold pyTruncLast
  split
  · rename_i hlen
    have hd : (old ++ ids).drop ((old ++ ids).length - 200)
        = old.drop ((old ++ ids).length - 200) ++ ids := by
      rw [List.drop_append_eq_append_drop]
      have h0 : (old ++ ids).length - 200 - old.length = 0 := by
        rw [List.length_append]
        omega
      rw [h0, List.drop_zero]
    rw [hd]
    exact List.suffix_append _ _
  · exact List.suffix_append _ _

/-- `_remember_tracks` stores, under the written key, the old history plus the
served (truthy) ids, truncated to the newest 200. -/
theorem remember_tracks_self (histMap : List (String × List String)) (u : String)
    (ids : List String) (hids : ∀ x ∈ ids, x ≠ "")
    (hold : ((dFind u histMap).getD []).length ≤ 200) :
    (dFind u (_remember_tracks histMap u ids)).getD []
      = pyTruncLast 200 (((dFind u histMap).getD []) ++ ids) := by
  have hfilt : ids.filter (· ≠ "") = ids := by
    apply List.filter_eq_self.mpr
    intro a ha
    simpa using hids a ha
  by_cases he : ids.isEmpty = true
  · have hnil : ids = [] := by
      cases ids with
      | nil => rfl
      | cons a l => exact absurd he (by simp)
    unfold _remember_tracks
    rw [if_pos he, hnil, List.append_nil]
    unfold pyTruncLast
    rw [if_neg (by omega)]
  · unfold _remember_tracks
    rw [if_neg he]
    show (dFind u (dSet histMap u (pyTruncLast 200
        (((dFind u histMap).getD []) ++ ids.filter (· ≠ ""))))).getD []
      = pyTruncLast 200 (((dFind u histMap).getD []) ++ ids)
    rw [hfilt, dFind_dSet_self]
    rfl

/-- On success, the state after `recommendSelect` is exactly the history write
of the served ids under the effective user key. -/
theorem recommendSelect_ok_state (env : Env) (st : SvcState) (args : RecArgs) (out : PipeOut)
    (h : (recommendSelect env st args).2 = Except.ok out) :
    (recommendSelect env st args).1.hist
      = _remember_tracks st.hist (effUserKey args.user_token)
          (out.tracks.map (fun r => r.id)) := by
  unfold recommendSelect at h ⊢
  cases hr : recommendPipeline env st args with
  | error e =>
      rw [hr] at h
      exact absurd h (by simp)
  | ok o =>
      rw [hr] at h
      have h2 : o = out := by simpa using h
      subst h2
      rfl

/-- Claim C5 (amended): after every successful recommend call for user key u,
the stored history for u equals the previous history followed by the served
ids, truncated to the newest 200 entries from the oldest end (FIFO); its
length is therefore at most 200; and whenever at most 200 ids were served,
those ids form a suffix of the stored history in served order.  (The original
claim promised the suffix unconditionally; serving more than 200 ids refutes
that, see the counterexample.) -/
theorem claim_C5_history_bound (env : Env) (st : SvcState) (args : RecArgs) (out : PipeOut)
    (h : (recommendSelect env st args).2 = Except.ok out)
    (hold : ((dFind (effUserKey args.user_token) st.hist).getD []).length ≤ 200) :
    (dFind (effUserKey args.user_token) (recommendSelect env st args).1.hist).getD []
        = pyTruncLast 200 (((dFind (effUserKey args.user_token) st.hist).getD [])
            ++ out.tracks.map (fun r => r.id)) ∧
    ((dFind (effUserKey args.user_token) (recommendSelect env st args).1.hist).getD []).length
        ≤ 200 ∧
    ((out.tracks.map (fun r => r.id)).length ≤ 200 →
      (out.tracks.map (fun r => r.id)) <:+
        (dFind (effUserKey args.user_token) (recommendSelect env st args).1.hist).getD []) := by
  have hids : ∀ x ∈ out.tracks.map (fun r => r.id), x ≠ "" := by
    obtain ⟨uk, stm, rt, jh, ap, ug, ig, sa, ma, li, r7, hout⟩ :=
      pipeline_ok_shape env st args out (select_ok_pipeline env st args out h)
    rw [hout]
    exact (pipelineFinish_ids_good env st.hist uk stm rt jh ap ug ig sa ma li r7).2
  rw [recommendSelect_ok_state env st args out h]
  rw [remember_tracks_self st.hist (effUserKey args.user_token)
    (out.tracks.map (fun r => r.id)) hids hold]
  exact ⟨rfl, pyTruncLast_length_le _, fun hle => pyTruncLast_suffix _ _ hle⟩

/-- Witness for C5 (amended): the empty-catalog run for user `u` leaves the
prior one-entry history exactly in place (no ids served). -/
theorem claim_C5_witness :
    ∃ out, (recommendSelect envEmpty ⟨[("u", ["a"])]⟩
        { target_features := tfEnergy, user_token := some "u" }).2 = Except.ok out ∧
      (dFind (effUserKey (some "u"))
          (recommendSelect envEmpty ⟨[("u", ["a"])]⟩
            { target_features := tfEnergy, user_token := some "u" }).1.hist).getD []
        = pyTruncLast 200 (((dFind (effUserKey (some "u"))
            (⟨[("u", ["a"])]⟩ : SvcState).hist).getD [])
            ++ out.tracks.map (fun r => r.id)) := by
  obtain ⟨out, hout⟩ : ∃ out, (recommendSelect envEmpty ⟨[("u", ["a"])]⟩
      { target_features := tfEnergy, user_token := some "u" }).2 = Except.ok out :=
    ⟨_, by with_unfolding_all rfl⟩
  exact ⟨out, hout,
    (claim_C5_history_bound envEmpty ⟨[("u", ["a"])]⟩
      { target_features := tfEnergy, user_token := some "u" } out hout (by decide)).1⟩

/-- 201 catalog entries with distinct single-character ids and increasing
popularity. -/
def bigPool : List Td := (List.range 201).map (fun n =>
  { id := String.mk [Char.ofNat (256 + n)], name := String.mk [Char.ofNat (1024 + n)],
    artists := [], popularity := (n : Int) })

/-- A client whose seed-artist top-tracks fallback serves the 201 entries. -/
def client5 : Client :=
  { emptyClient with
    resolve_artist_ids := fun _ _ => [("A", "aid")],
    get_artist_top_tracks := fun _ _ l => if l == 201 then bigPool else [] }

/-- The environment around `client5`. -/
def env5 : Env := { client := client5 }

/-- A request for 201 tracks for user `u`, seeded on artist `A`. -/
def args5 : RecArgs :=
  { target_features := tfEnergy, seed_artists := some [some "A"], limit := some 201,
    user_token := some "u" }

set_option maxRecDepth 100000 in
set_option maxHeartbeats 4000000 in
/-- Counterexample for the unconditional suffix clause of C5: a successful run
serving 201 ids stores only 200 of them, so the served ids are not a suffix of
the stored history. -/
theorem claim_C5_counterexample :
    ∃ out, (recommendSelect env5 ⟨[]⟩ args5).2 = Except.ok out ∧
      ¬ ((out.tracks.map (fun r => r.id)) <:+
        ((dFind (effUserKey args5.user_token)
          (recommendSelect env5 ⟨[]⟩ args5).1.hist).getD [])) := by
  obtain ⟨out, hout⟩ : ∃ out, (recommendSelect env5 ⟨[]⟩ args5).2 = Except.ok out :=
    ⟨_, by with_unfolding_all rfl⟩
  refine ⟨out, hout, ?_⟩
  intro hsuf
  have h1 : ((dFind (effUserKey args5.user_token)
      (recommendSelect env5 ⟨[]⟩ args5).1.hist).getD []).length = 200 := by
    with_unfolding_all rfl
  have h3 : (out.tracks.map (fun r => r.id)).length = 201 := by
    have h4 : ((recommendSelect env5 ⟨[]⟩ args5).2).map
        (fun o => (o.tracks.map (fun r => r.id)).length) = Except.ok 201 := by
      with_unfolding_all rfl
    rw [hout] at h4
    simpa [Except.map] using h4
  have h5 := hsuf.length_le
  rw [h1] at h5
  omega

/-! ## Claim C6: the feature distance formula -/

/-- The common-feature test of `specCommonKeys`, as a named predicate. -/
def specCommonTest (feats target : List (String × ℚ)) (k : String) : Bool :=
  (dFind k feats).isSome && (dFind k target).isSome

/-- The per-key scaled accumulation step written with `specScaleOf`. -/
def scaledStep (feats target : List (String × ℚ)) (tc : ℚ × ℕ) (key : String) : ℚ × ℕ :=
  match dFind key feats, dFind key target with
  | some f, some t =>
      (tc.1 + ((f - t) / specScaleOf key) * ((f - t) / specScaleOf key), tc.2 + 1)
  | _, _ => tc

theorem scaled_fold_acc (feats target : List (String × ℚ)) :
    ∀ (ks : List String) (t0 : ℚ) (c0 : ℕ),
      ks.foldl (scaledStep feats target) (t0, c0)
      = (t0 + ((ks.filter (specCommonTest feats target)).map
            (fun k => (((dFind k feats).getD 0 - (dFind k target).getD 0) / specScaleOf k) ^ 2)).sum,
         c0 + (ks.filter (specCommonTest feats target)).length) := by
  intro ks
  induction ks with
  | nil => intro t0 c0; simp
  | cons k rest ih =>
      intro t0 c0
      simp only [List.foldl_cons, List.filter_cons]
      cases hdf : dFind k feats with
      | none => simpa [scaledStep, specCommonTest, hdf] using ih t0 c0
      | some f =>
          cases hdt : dFind k target with
          | none => simpa [scaledStep, specCommonTest, hdf, hdt] using ih t0 c0
          | some t =>
              simp only [scaledStep, specCommonTest, hdf, hdt, Option.isSome_some,
                Bool.and_self, if_pos, List.map_cons, List.sum_cons, List.length_cons]
              rw [ih]
              simp only [Option.getD_some, Prod.mk.injEq]
              constructor
              · rw [sq]
                ring
              · omega

theorem C6_tail (fsqrt : ℚ → ℚ) (g : String → ℚ) (F5 L : List String) (S : ℚ) (n : ℕ)
    (hS : S = ((F5 ++ L).map g).sum) (hn : n = (F5 ++ L).length) :
    (if n = 0 then (1e9 : ℚ) else fsqrt (S / (n : ℚ)))
      = (if F5 ++ L = [] then (1e9 : ℚ)
         else fsqrt ((((F5 ++ L).map g).sum) / (((F5 ++ L).length : ℚ)))) := by
  subst hS hn
  by_cases h : F5 ++ L = []
  · rw [if_pos (List.length_eq_zero.mpr h), if_pos h]
  · rw [if_neg (fun hh => h (List.length_eq_zero.mp hh)), if_neg h]

/-- Claim C6: `_feature_distance` equals the square-root routine applied to
the mean of squared scaled deltas (tempo scaled by 50, loudness by 10) over
whichever scoring features are present in both mappings, and the `1e9`
sentinel when either mapping is empty or no scoring feature is shared. -/
theorem claim_C6_feature_distance (fsqrt : ℚ → ℚ) (feats target : List (String × ℚ)) :
    _feature_distance fsqrt feats target =
      (if feats.isEmpty ∨ target.isEmpty ∨ specCommonKeys feats target = [] then 1e9
       else fsqrt (specMeanSq feats target)) := by
  by_cases he : feats.isEmpty ∨ target.isEmpty
  · rcases he with he | he <;> simp [_feature_distance, he]
  · push_neg at he
    obtain ⟨hef, het⟩ := he
    unfold _feature_distance
    rw [if_neg (by simp [hef, het])]
    have hfold5 : scoringKeys.foldl
        (fun (tc : ℚ × ℕ) key =>
          match dFind key feats, dFind key target with
          | some f, some t => (tc.1 + (f - t) * (f - t), tc.2 + 1)
          | _, _ => tc) ((0 : ℚ), (0 : ℕ))
        = scoringKeys.foldl (scaledStep feats target) ((0 : ℚ), (0 : ℕ)) := by
      refine List.foldl_ext _ _ _ ?_
      intro tc k hk
      have h1 : specScaleOf k = 1 := by
        fin_cases hk <;> rfl
      unfold scaledStep
      rw [h1]
      cases dFind k feats <;> cases dFind k target <;> simp
    rw [hfold5, scaled_fold_acc feats target scoringKeys 0 0]
    have hcommon : specCommonKeys feats target
        = scoringKeys.filter (specCommonTest feats target)
          ++ ["tempo", "loudness"].filter (specCommonTest feats target) := by
      rw [specCommonKeys, specDistanceKeys, List.filter_append]
      rfl
    have hef' : feats.isEmpty = false := Bool.not_eq_true _ ▸ Bool.eq_false_iff.mpr hef
    have het' : target.isEmpty = false := Bool.not_eq_true _ ▸ Bool.eq_false_iff.mpr het
    rw [specMeanSq, hcommon]
    simp only [hef', het', Bool.false_eq_true, false_or, zero_add, Nat.zero_add]
    cases hdf : dFind "tempo" feats with
    | none =>
        cases hdl : dFind "loudness" feats with
        | none =>
            simp only [hdf, hdl]
            have hFT : ["tempo", "loudness"].filter (specCommonTest feats target) = [] := by
              simp [specCommonTest, hdf, hdl, List.filter]
            rw [hFT]
            exact C6_tail fsqrt _ _ [] _ _ (by simp) (by simp)
        | some fL =>
            cases hdlt : dFind "loudness" target with
            | none =>
                simp only [hdf, hdl, hdlt]
                have hFT : ["tempo", "loudness"].filter (specCommonTest feats target) = [] := by
                  simp [specCommonTest, hdf, hdl, hdlt, List.filter]
                rw [hFT]
                exact C6_tail fsqrt _ _ [] _ _ (by simp) (by simp)
            | some tL =>
                simp only [hdf, hdl, hdlt]
                have hFT : ["tempo", "loudness"].filter (specCommonTest feats target)
                    = ["loudness"] := by
                  simp [specCommonTest, hdf, hdl, hdlt, List.filter]
                rw [hFT]
                refine C6_tail fsqrt _ _ ["loudness"] _ _ ?_ ?_
                · have h10 : specScaleOf "loudness" = 10 := rfl
                  simp [List.map_append, hdl, hdlt, h10, sq]
                · simp
    | some fT =>
        cases hdtt : dFind "tempo" target with
        | none =>
            cases hdl : dFind "loudness" feats with
            | none =>
                simp only [hdf, hdtt, hdl]
                have hFT : ["tempo", "loudness"].filter (specCommonTest feats target) = [] := by
                  simp [specCommonTest, hdf, hdtt, hdl, List.filter]
                rw [hFT]
                exact C6_tail fsqrt _ _ [] _ _ (by simp) (by simp)
            | some fL =>
                cases hdlt : dFind "loudness" target with
                | none =>
                    simp only [hdf, hdtt, hdl, hdlt]
                    have hFT : ["tempo", "loudness"].filter (specCommonTest feats target)
                        = [] := by
                      simp [specCommonTest, hdf, hdtt, hdl, hdlt, List.filter]
                    rw [hFT]
                    exact C6_tail fsqrt _ _ [] _ _ (by simp) (by simp)
                | some tL =>
                    simp only [hdf, hdtt, hdl, hdlt]
                    have hFT : ["tempo", "loudness"].filter (specCommonTest feats target)
                        = ["loudness"] := by
                      simp [specCommonTest, hdf, hdtt, hdl, hdlt, List.filter]
                    rw [hFT]
                    refine C6_tail fsqrt _ _ ["loudness"] _ _ ?_ ?_
                    · have h10 : specScaleOf "loudness" = 10 := rfl
                      simp [List.map_append, hdl, hdlt, h10, sq]
                    · simp
        | some tT =>
            cases hdl : dFind "loudness" feats with
            | none =>
                simp only [hdf, hdtt, hdl]
                have hFT : ["tempo", "loudness"].filter (specCommonTest feats target)
                    = ["tempo"] := by
                  simp [specCommonTest, hdf, hdtt, hdl, List.filter]
                rw [hFT]
                refine C6_tail fsqrt _ _ ["tempo"] _ _ ?_ ?_
                · have h50 : specScaleOf "tempo" = 50 := rfl
                  simp [List.map_append, hdf, hdtt, h50, sq]
                · simp
            | some fL =>
                cases hdlt : dFind "loudness" target with
                | none =>
                    simp only [hdf, hdtt, hdl, hdlt]
                    have hFT : ["tempo", "loudness"].filter (specCommonTest feats target)
                        = ["tempo"] := by
                      simp [specCommonTest, hdf, hdtt, hdl, hdlt, List.filter]
                    rw [hFT]
                    refine C6_tail fsqrt _ _ ["tempo"] _ _ ?_ ?_
                    · have h50 : specScaleOf "tempo" = 50 := rfl
                      simp [List.map_append, hdf, hdtt, h50, sq]
                    · simp
                | some tL =>
                    simp only [hdf, hdtt, hdl, hdlt]
                    have hFT : ["tempo", "loudness"].filter (specCommonTest feats target)
                        = ["tempo", "loudness"] := by
                      simp [specCommonTest, hdf, hdtt, hdl, hdlt, List.filter]
                    rw [hFT]
                    refine C6_tail fsqrt _ _ ["tempo", "loudness"] _ _ ?_ ?_
                    · have h50 : specScaleOf "tempo" = 50 := rfl
                      have h10 : specScaleOf "loudness" = 10 := rfl
                      simp [List.map_append, hdf, hdtt, hdl, hdlt, h50, h10, sq]
                      ring
                    · simp

/-! ## Claim C7: the final ranking score -/

theorem mem_stableInsertBy {α : Type} (gb : α → α → Bool) (x : α) :
    ∀ (l : List α) (z : α), z ∈ stableInsertBy gb x l ↔ z = x ∨ z ∈ l := by
  intro l
  induction l with
  | nil => intro z; simp [stableInsertBy]
  | cons y ys ih =>
      intro z
      unfold stableInsertBy
      by_cases h : gb x y
      · simp [h, or_comm, or_assoc, or_left_comm]
      · simp only [h, Bool.false_eq_true, if_false, List.mem_cons, ih]
        tauto

theorem stableInsertBy_perm {α : Type} (gb : α → α → Bool) (x : α) :
    ∀ l : List α, List.Perm (stableInsertBy gb x l) (x :: l) := by
  intro l
  induction l with
  | nil => simp [stableInsertBy]
  | cons y ys ih =>
      unfold stableInsertBy
      by_cases h : gb x y
      · simp [h]
      · simp only [h, Bool.false_eq_true, if_false]
        exact (List.Perm.cons y ih).trans (List.Perm.swap x y ys)

theorem stableSortBy_perm_aux {α : Type} (gb : α → α → Bool) :
    ∀ (l acc : List α), List.Perm (l.foldl (fun acc x => stableInsertBy gb x acc) acc) (acc ++ l) := by
  intro l
  induction l with
  | nil => intro acc; simp
  | cons x xs ih =>
      intro acc
      simp only [List.foldl_cons]
      refine (ih (stableInsertBy gb x acc)).trans ?_
      have h1 : List.Perm (stableInsertBy gb x acc ++ xs) ((x :: acc) ++ xs) :=
        (stableInsertBy_perm gb x acc).append_right xs
      refine h1.trans ?_
      simpa using List.perm_middle.symm

theorem stableSortBy_perm {α : Type} (gb : α → α → Bool) (l : List α) :
    List.Perm (stableSortBy gb l) l := by
  simpa using stableSortBy_perm_aux gb l []

theorem pairwise_stableInsertBy {α : Type} (key : α → ℚ) (x : α) :
    ∀ l : List α, List.Pairwise (fun a b => key b ≤ key a) l →
      List.Pairwise (fun a b => key b ≤ key a)
        (stableInsertBy (fun a b => decide (key b < key a)) x l) := by
  intro l
  induction l with
  | nil => intro _; simp [stableInsertBy]
  | cons y ys ih =>
      intro hp
      rcases List.pairwise_cons.mp hp with ⟨hy, hys⟩
      unfold stableInsertBy
      by_cases h : decide (key y < key x) = true
      · rw [if_pos h]
        have hxy : key y ≤ key x := le_of_lt (of_decide_eq_true h)
        refine List.pairwise_cons.mpr ⟨?_, hp⟩
        intro z hz
        rcases List.mem_cons.mp hz with rfl | hz
        · exact hxy
        · exact le_trans (hy z hz) hxy
      · rw [if_neg (by simpa using h)]
        have hyx : key x ≤ key y := not_lt.mp (of_decide_eq_false (by simpa using h))
        refine List.pairwise_cons.mpr ⟨?_, ih hys⟩
        intro z hz
        rcases (mem_stableInsertBy _ x ys z).mp hz with rfl | hz
        · exact hyx
        · exact hy z hz

theorem pairwise_stableSortBy_aux {α : Type} (key : α → ℚ) :
    ∀ (l acc : List α), List.Pairwise (fun a b => key b ≤ key a) acc →
      List.Pairwise (fun a b => key b ≤ key a)
        (l.foldl (fun acc x => stableInsertBy (fun a b => decide (key b < key a)) x acc) acc) := by
  intro l
  induction l with
  | nil => intro acc h; simpa using h
  | cons x xs ih =>
      intro acc h
      simp only [List.foldl_cons]
      exact ih _ (pairwise_stableInsertBy key x acc h)

theorem sortScoredDesc_sorted {α : Type} (l : List (ℚ × α)) :
    List.Pairwise (fun a b => b.1 ≤ a.1) (sortScoredDesc l) :=
  pairwise_stableSortBy_aux (fun p : ℚ × α => p.1) l [] (by simp)

theorem sortScoredDesc_perm {α : Type} (l : List (ℚ × α)) : List.Perm (sortScoredDesc l) l :=
  stableSortBy_perm _ l

theorem rankScored_get (env : Env) (afm : List (String × List (String × ℚ)))
    (targetFeatures jitterHint : List (String × ℚ)) (tracks : List Td) (i : ℕ) (t : Td)
    (ht : tracks.get? i = some t) :
    (rankScored env tracks afm targetFeatures jitterHint).get? i
      = some (amendedScoreOf env afm targetFeatures jitterHint i t, t) := by
  unfold rankScored
  rw [List.get?_map, List.get?_enum, ht]
  rfl

/-- Claim C7 (amended): in the final ranking step every candidate score equals
`-distance + popularity/200 + jitter - index * 1e-5` — with no era bonus and no
remaster penalty, which enter only the earlier re-ranking pass via
`_score_item`; the scored list is stably sorted descending and sliced to the
rank limit. -/
theorem claim_C7_rank_score (env : Env) (afm : List (String × List (String × ℚ)))
    (targetFeatures jitterHint : List (String × ℚ)) (tracks : List Td) (limit : Int) :
    (∀ (i : ℕ) (t : Td), tracks.get? i = some t →
        (rankScored env tracks afm targetFeatures jitterHint).get? i
          = some (amendedScoreOf env afm targetFeatures jitterHint i t, t)) ∧
    List.Pairwise (fun (a b : ℚ × Td) => b.1 ≤ a.1)
      (sortScoredDesc (rankScored env tracks afm targetFeatures jitterHint)) ∧
    List.Perm (sortScoredDesc (rankScored env tracks afm targetFeatures jitterHint))
      (rankScored env tracks afm targetFeatures jitterHint) ∧
    (tracks ≠ [] → _rank_tracks env tracks afm targetFeatures jitterHint limit
      = (pyTake limit (sortScoredDesc (rankScored env tracks afm targetFeatures jitterHint))).map
          Prod.snd) := by
  refine ⟨fun i t ht => rankScored_get env afm targetFeatures jitterHint tracks i t ht,
    sortScoredDesc_sorted _, sortScoredDesc_perm _, fun hne => ?_⟩
  unfold _rank_tracks
  rw [if_neg (by simpa using hne)]

/-- A remaster-titled candidate: `_score_item` penalises it by 0.25, the final
ranking step does not. -/
def tdRemaster : Td := { id := "r", name := "Song (Remastered)", popularity := 0 }

/-- A one-feature target profile. -/
def targetEnergy : List (String × ℚ) := [("energy", 1/2)]

/-- Counterexample for C7 as stated: for a remaster-titled candidate the final
ranking score is `-1e9` (sentinel distance, zero popularity and jitter), while
the score formula the claim prescribes also subtracts the 0.25 remaster
penalty — the two differ. -/
theorem claim_C7_counterexample :
    (rankScored envEmpty [tdRemaster] [] targetEnergy []).map Prod.fst = [-(1e9 : ℚ)] ∧
    specClaimScore envEmpty [] targetEnergy [] (_era_from_context [] []) 0 tdRemaster
      = -(1e9 : ℚ) - 1/4 ∧
    (-(1e9 : ℚ)) ≠ -(1e9 : ℚ) - 1/4 := by
  refine ⟨?_, ?_, ?_⟩
  · with_unfolding_all rfl
  · with_unfolding_all rfl
  · intro h
    have := sub_eq_zero.mpr h.symm
    norm_num at this

/-- An unremarkable candidate for the C7 witness. -/
def tdPlain : Td := { id := "p", name := "plain song", artists := ["a"], popularity := 70 }

/-- Witness for C7 (amended): the score of a concrete candidate at index 0
matches the amended formula. -/
theorem claim_C7_witness :
    (rankScored envEmpty [tdPlain] [] targetEnergy []).get? 0
      = some (amendedScoreOf envEmpty [] targetEnergy [] 0 tdPlain, tdPlain) :=
  (claim_C7_rank_score envEmpty [] targetEnergy [] [tdPlain] 1).1 0 tdPlain rfl

/-- A candidate with popularity 60, surviving the floor-55 pass. -/
def tdPop60 : Td := { id := "y", name := "b", artists := ["br"], popularity := 60 }

/-- Witness for C9 (amended): the staged pool of a concrete pool contains only
candidates with popularity at least 45. -/
theorem claim_C9_witness : 45 ≤ tdPop60.popularity :=
  (claim_C9_floor_relaxation [tdPop60] 1 [] "KR").2 tdPop60 (by
    have h : stageSelect [tdPop60] 1 [] "KR" = [tdPop60] := by with_unfolding_all rfl
    rw [h]
    exact List.mem_singleton.mpr rfl)

end RecSvc
